import Mathlib

/-!
# A shallow embedding of the `triemap` crate (trie_map.rs, slice_pool.rs)

This file embeds the data model and the core operations of the `TrieMap`
byte-keyed trie with bitmap-compressed nodes, a length-bucketed slice pool
and a free-list value store, and proves/refutes the specification claims
about them.

Modelling conventions:
* Machine bytes are `Nat` (always `< 256` in real executions); keys are
  `List Nat`.
* The 256-bit presence bitmap of a node is a `Nat` bitmask; `test_bit`,
  `set_bit`, `clear_bit` and `popcount` are modelled arithmetically
  (bit `b` of `m` is `m / 2 ^ b % 2`).
* Rust `Vec`/boxed slices are Lean `List`s.  `Vec::pop`/`Vec::push` on
  `free_indices` and on the pool buckets operate on the same end of the
  vector; we model that end as the list head (same LIFO behaviour).
* Code that can panic (out-of-bounds indexing) or hit undefined behaviour
  (`get_unchecked` out of range) is modelled in the `Option` monad, with
  `none` for the abnormal outcome.
* `node.rs`, `iter.rs` and `entry.rs` of the repository are not under
  `src/`; the definitions taken from the spec instead of the source say so
  in their doc comments.
-/

set_option autoImplicit false
set_option maxRecDepth 8000

/-! ## Bit operations (node.rs is not in src/)

Modelled from the spec: node.rs provides `test_bit`, `set_bit`, `clear_bit`
and `popcount` over a fixed 256-bit set; `popcount(mask, b)` is the rank:
the number of set bits for byte values strictly less than `b` (spec §4.1,
§3).  We model the bit set as a natural-number bitmask; bit `b` is the
parity of `mask / 2 ^ b`. -/

/-- Modelled from the spec: bit test on the 256-bit presence set
(`test(byte)` of spec §4.1); bit `b` of `mask` as an arithmetic parity. -/
def test_bit (mask : Nat) (b : Nat) : Bool :=
  mask / 2 ^ b % 2 == 1

/-- Modelled from the spec: `set(byte)` of spec §4.1.  Setting an already
set bit is the identity; setting a clear bit adds `2 ^ b`. -/
def set_bit (mask : Nat) (b : Nat) : Nat :=
  if test_bit mask b then mask else mask + 2 ^ b

/-- Modelled from the spec: `clear(byte)` of spec §4.1. -/
def clear_bit (mask : Nat) (b : Nat) : Nat :=
  if test_bit mask b then mask - 2 ^ b else mask

/-- Modelled from the spec: `rank(byte)` / `popcount` of spec §4.1: the
number of set bits at positions strictly below `b`, written as a sum of
bit tests. -/
def popcount (mask : Nat) : Nat → Nat
  | 0 => 0
  | b + 1 => popcount mask b + (if test_bit mask b then 1 else 0)

/-- Total popcount of the 256-bit presence set (all byte values). -/
def popcountAll (mask : Nat) : Nat := popcount mask 256

/-- The list of set byte values strictly below `m`, in ascending order:
the byte values a traversal visits.  `maskBitsUpTo mask 256` enumerates
the present child edges of a node in increasing byte order. -/
def maskBitsUpTo (mask : Nat) : Nat → List Nat
  | 0 => []
  | b + 1 => maskBitsUpTo mask b ++ (if test_bit mask b then [b] else [])

/-- All set byte values of a 256-bit presence mask, ascending. -/
def maskBits (mask : Nat) : List Nat := maskBitsUpTo mask 256

/-! ## TrieNode (node.rs is not in src/) -/

/-- Modelled from the spec: the `TrieNode` of node.rs (spec §3 "Bitmap
Node"): a 256-bit presence set `is_present`, the densely packed,
rank-ordered `children` array, and the optional value-store index
`data_idx` (the spec's `value_slot`).  Field names follow the uses in
trie_map.rs (`node.is_present`, `node.children`, `node.data_idx`). -/
inductive TrieNode : Type where
  | mk (is_present : Nat) (children : List TrieNode) (data_idx : Option Nat)

/-- `TrieNode::new()`: empty bitmap, no children, no value slot. -/
def TrieNode.new : TrieNode := .mk 0 [] none

def TrieNode.is_present : TrieNode → Nat
  | .mk p _ _ => p

def TrieNode.children : TrieNode → List TrieNode
  | .mk _ c _ => c

def TrieNode.data_idx : TrieNode → Option Nat
  | .mk _ _ d => d

/-! ## SlicePool (slice_pool.rs) -/

/-- `SlicePool { pools: [Vec<Box<[TrieNode]>>; 257] }`: one bucket per
slice length 0..=256.  A bucket is a LIFO stack of slices; we keep its
top (the `Vec` end that `push`/`pop` operate on) at the list head. -/
structure SlicePool : Type where
  pools : List (List (List TrieNode))

/-- `SlicePool::new()`: 257 empty buckets. -/
def SlicePool.new : SlicePool := ⟨List.replicate 257 []⟩

/-- `SlicePool::get(len)`.  NOTE: the source computes the bucket index as
`len.max(256)`, so every request of length `≤ 256` probes bucket 256 only.
`pools.get_unchecked_mut(idx)` with `idx ≥ 257` (request length `≥ 257`)
is undefined behaviour, modelled as `none`.  On a pool miss it returns a
freshly default-initialized slice of exactly `len` nodes; on a pool hit it
returns the popped slice as-is. -/
def SlicePool.get (p : SlicePool) (len : Nat) : Option (List TrieNode × SlicePool) :=
  let idx := max len 256
  match p.pools[idx]? with
  | none => none
  | some bucket =>
    match bucket with
    | slice :: rest => some (slice, ⟨p.pools.set idx rest⟩)
    | [] => some (List.replicate len TrieNode.new, p)

/-- `SlicePool::put(slice)`: files the slice in the bucket of its exact
length.  `get_unchecked_mut` with a length `≥ 257` is undefined behaviour,
modelled as `none`. -/
def SlicePool.put (p : SlicePool) (slice : List TrieNode) : Option SlicePool :=
  let idx := slice.length
  match p.pools[idx]? with
  | none => none
  | some bucket => some ⟨p.pools.set idx (slice :: bucket)⟩

/-- `SlicePool::clear()`: empties every bucket. -/
def SlicePool.clear (p : SlicePool) : SlicePool :=
  ⟨p.pools.map (fun _ => [])⟩

/-! ## TrieMap (trie_map.rs) -/

/-- The `TrieMap<T>` state: the value store `data` with its free list
`free_indices`, the `root` node, the live-key count `size`, and the
per-map slice `pool`. -/
structure TrieMap (V : Type) : Type where
  data : List (Option V)
  free_indices : List Nat
  root : TrieNode
  size : Nat
  pool : SlicePool

/-- `TrieMap::new()`. -/
def TrieMap.new {V : Type} : TrieMap V := ⟨[], [], TrieNode.new, 0, SlicePool.new⟩

/-- `TrieMap::len()`. -/
def TrieMap.len {V : Type} (s : TrieMap V) : Nat := s.size

/-- `TrieMap::is_empty()`. -/
def TrieMap.isEmpty {V : Type} (s : TrieMap V) : Bool := s.size == 0

/-- `TrieMap::clear()` (trie_map.rs:319-324): clears `data` and
`free_indices`, replaces the root by a fresh node and zeroes `size`.
It does NOT touch `self.pool`. -/
def TrieMap.clear {V : Type} (s : TrieMap V) : TrieMap V :=
  ⟨[], [], TrieNode.new, 0, s.pool⟩

/-- The structural walk of `insert` (trie_map.rs:345-370), returning the
rebuilt subtree, the updated pool and the terminal node's previous
`data_idx`; the freshly allocated store index `newIdx` is written into the
terminal node.  In the grow case the source's two `mem::swap` loops fill
`new_children[0..idx)` and `new_children[idx+1..n+1)` from the old array,
place a fresh node at `idx`, and leave positions `n+1..` of the acquired
slice untouched; the old array, as returned to the pool, holds what the
acquired slice held at positions `0..idx)` and `idx+1..n+1)`.  The loops
panic (modelled `none`) unless `idx ≤ n` and `n + 1 ≤ slice.length`.
Indexing `children[idx]` with a set bit and `idx` out of bounds also
panics (`children.get? idx = none`). -/
def insertWalk (pool : SlicePool) (node : TrieNode) (bytes : List Nat) (newIdx : Nat) :
    Option (TrieNode × SlicePool × Option Nat) :=
  match bytes with
  | [] => some (.mk node.is_present node.children (some newIdx), pool, node.data_idx)
  | b :: rest =>
    let idx := popcount node.is_present b
    if test_bit node.is_present b then
      match node.children[idx]? with
      | none => none
      | some child =>
        match insertWalk pool child rest newIdx with
        | none => none
        | some (child', pool', prev) =>
          some (.mk node.is_present (node.children.set idx child') node.data_idx, pool', prev)
    else
      let n := node.children.length
      match pool.get (n + 1) with
      | none => none
      | some (slice, pool₁) =>
        if idx ≤ n ∧ n + 1 ≤ slice.length then
          let newCs := node.children.take idx ++ TrieNode.new :: node.children.drop idx
              ++ slice.drop (n + 1)
          let oldSlice := slice.take idx ++ (slice.drop (idx + 1)).take (n - idx)
          match pool₁.put oldSlice with
          | none => none
          | some pool₂ =>
            match insertWalk pool₂ TrieNode.new rest newIdx with
            | none => none
            | some (sub, pool₃, prev) =>
              some (.mk (set_bit node.is_present b) (newCs.set idx sub) node.data_idx,
                pool₃, prev)
        else none

/-- `TrieMap::insert` (trie_map.rs:341-395).  The source walks first and
allocates the store slot afterwards; the two phases touch disjoint state
(pool/root vs data/free_indices), so we may compute the allocation up
front.  Allocation pops the most recently freed index if any (writing the
value there; out-of-bounds write panics), else appends.  If the terminal
node had a previous index, that slot is cleared and pushed on the free
list and `size` is unchanged; otherwise `size` increments. -/
def TrieMap.insert {V : Type} (s : TrieMap V) (k : List Nat) (v : V) : Option (TrieMap V) :=
  let alloc : Option (Nat × List (Option V) × List Nat) :=
    match s.free_indices with
    | f :: restFree =>
      if f < s.data.length then some (f, s.data.set f (some v), restFree) else none
    | [] => some (s.data.length, s.data ++ [some v], [])
  match alloc with
  | none => none
  | some (j, data₁, free₁) =>
    match insertWalk s.pool s.root k j with
    | none => none
    | some (root', pool', prev) =>
      match prev with
      | none => some ⟨data₁, free₁, root', s.size + 1, pool'⟩
      | some p =>
        if p < data₁.length then
          some ⟨data₁.set p none, p :: free₁, root', s.size, pool'⟩
        else none

/-- The checked walk shared by `get`, `entry`, `remove_and_prune` and
`prefix_iter` (e.g. trie_map.rs:412-423): follow the key's bytes,
returning `none` if a presence bit is unset or the rank is out of bounds
of the children array (`children.get? idx = none` is exactly the source's
`idx >= current.children.len()` early return). -/
def getNode (node : TrieNode) (bytes : List Nat) : Option TrieNode :=
  match bytes with
  | [] => some node
  | b :: rest =>
    if test_bit node.is_present b then
      match node.children[popcount node.is_present b]? with
      | none => none
      | some child => getNode child rest
    else none

/-- `TrieMap::get` (trie_map.rs:408-426).  The outer `Option` is the
panic monad: the final `self.data[idx]` is an unchecked `Vec` index, so
`some r` is a normal return of `r` and `none` is a panic. -/
def TrieMap.get {V : Type} (s : TrieMap V) (k : List Nat) : Option (Option V) :=
  match getNode s.root k with
  | none => some none
  | some t =>
    match t.data_idx with
    | none => some none
    | some i =>
      match s.data[i]? with
      | none => none
      | some slot => some slot

/-- The walk of `remove_internal` (trie_map.rs:561-591) on the node tree:
returns the rebuilt tree and the freed store index, if any.  Removal
happens only when the walk reaches the terminal node and its `data_idx`
points at an in-bounds, occupied slot (both checked by the source). -/
def removeNode {V : Type} (data : List (Option V)) (node : TrieNode) (bytes : List Nat) :
    TrieNode × Option Nat :=
  match bytes with
  | [] =>
    match node.data_idx with
    | some i =>
      match data[i]? with
      | some (some _) => (.mk node.is_present node.children none, some i)
      | _ => (node, none)
    | none => (node, none)
  | b :: rest =>
    if test_bit node.is_present b then
      match node.children[popcount node.is_present b]? with
      | none => (node, none)
      | some child =>
        let r := removeNode data child rest
        (.mk node.is_present (node.children.set (popcount node.is_present b) r.1)
          node.data_idx, r.2)
    else (node, none)

/-- `TrieMap::remove` via `remove_internal` (trie_map.rs:555-591):
tombstone removal.  All indexing is bounds-checked by the source, so the
operation is total; it returns the new map and the removed value. -/
def TrieMap.remove {V : Type} (s : TrieMap V) (k : List Nat) : TrieMap V × Option V :=
  match removeNode s.data s.root k with
  | (root', some i) =>
    (⟨s.data.set i none, i :: s.free_indices, root', s.size - 1, s.pool⟩,
      (s.data[i]?).bind id)
  | (_, none) => (s, none)

/-- The checked walk of `remove_and_prune_internal` (trie_map.rs:617-630):
follow the key's bytes, recording the computed child position
(`path_indices`) at each step, and return the terminal node together with
the recorded positions.  `none` is the source's early `return None`: a
presence bit is unset, or the computed rank is out of range of the
children array (`children.get? idx = none` is exactly the source's
`idx >= current.children.len()` check).  The recorded `path` equals the
key itself, so only the positions need keeping. -/
def walkIndices : TrieNode → List Nat → Option (TrieNode × List Nat)
  | node, [] => some (node, [])
  | node, b :: rest =>
    if test_bit node.is_present b then
      match node.children[popcount node.is_present b]? with
      | none => none
      | some child =>
        (walkIndices child rest).map (fun r => (r.1, popcount node.is_present b :: r.2))
    else none

/-- The loop's re-walk `current = &mut current.children[*item]`
(trie_map.rs:646-648): descend by recorded child positions.  The `Vec`
index panics when out of range (`none`). -/
def nodeAt : TrieNode → List Nat → Option TrieNode
  | node, [] => some node
  | node, i :: rest => (node.children[i]?).bind (fun c => nodeAt c rest)

/-- Writing a rebuilt node back at a child-position path: the effect of
the source's mutation through the `&mut` chain obtained by the re-walk. -/
def setNodeAt : TrieNode → List Nat → TrieNode → Option TrieNode
  | _, [], new => some new
  | node, i :: rest, new =>
    (node.children[i]?).bind (fun c =>
      (setNodeAt c rest new).map (fun c' =>
        .mk node.is_present (node.children.set i c') node.data_idx))

/-- One iteration of the backtracking loop of `remove_and_prune_internal`
(trie_map.rs:641-672) at a given depth: re-walk from the root to the
parent via the recorded positions `stem = path_indices[0..depth]`, look at
the child at the recorded position `child_idx = path_indices[depth]`, and
either compact — when the cascade flag is set and the child is dead (no
`data_idx`, empty children array): fetch a one-shorter slice from the
pool, fill it with the siblings (the skip-one `mem::swap` loop, which
panics — `none` — if the returned slice is too short; the swapped-into
slice keeps its surplus tail), return the old array (now holding the
slice's displaced heads and the dead child) to the pool, clear the
presence bit, and recompute the flag from the parent's new state — or
reset the flag to `false`.  Returns the updated tree, pool and flag. -/
def pruneStep (pool : SlicePool) (root : TrieNode) (byte child_idx : Nat)
    (stem : List Nat) (delete_child : Bool) :
    Option (TrieNode × SlicePool × Bool) :=
  match nodeAt root stem with
  | none => none
  | some current =>
    match current.children[child_idx]? with
    | none => none
    | some child =>
      if delete_child && child.data_idx.isNone && child.children.isEmpty then
        let n := current.children.length
        match pool.get (n - 1) with
        | none => none
        | some (slice, pool₁) =>
          if n - 1 ≤ slice.length then
            let newCs := current.children.eraseIdx child_idx ++ slice.drop (n - 1)
            let oldSlice := slice.take child_idx ++
              child :: (slice.drop child_idx).take (n - 1 - child_idx)
            match pool₁.put oldSlice with
            | none => none
            | some pool₂ =>
              let current' := TrieNode.mk (clear_bit current.is_present byte) newCs
                current.data_idx
              (setNodeAt root stem current').map (fun root' =>
                (root', pool₂, current'.data_idx.isNone && current'.children.isEmpty))
          else none
      else some (root, pool, false)

/-- The backtracking loop `for depth in (0..path.len()).rev()`
(trie_map.rs:641-672), entered with `delete_child = true`, one `pruneStep`
per depth from the deepest down to `0`.  NOTE (trie_map.rs:632-673): no
line of `remove_and_prune_internal` ever clears the terminal's
`data_idx` — the walk holds only a shared borrow, and, unlike
`remove_internal` (trie_map.rs:583), the removal branch only touches
`size`, `free_indices` and `data`.  The deepest iteration therefore
examines the terminal itself with `data_idx` still `Some`, its guard
`child.data_idx.is_none()` fails, `delete_child` becomes `false`, and
every shallower iteration takes the same `else` branch: the loop is dead
code, performing no pool traffic and no tree change. -/
def pruneLoop (path path_indices : List Nat) :
    Nat → Bool → SlicePool → TrieNode → Option (TrieNode × SlicePool)
  | 0, _, pool, root => some (root, pool)
  | d + 1, delete_child, pool, root =>
    match path[d]?, path_indices[d]? with
    | some byte, some child_idx =>
      match pruneStep pool root byte child_idx (path_indices.take d) delete_child with
      | none => none
      | some (root', pool', flag) => pruneLoop path path_indices d flag pool' root'
    | _, _ => none

/-- `TrieMap::remove_and_prune` via `remove_and_prune_internal`
(trie_map.rs:611-682).  The walk is fully checked (early `None` returns
leave the map untouched); the terminal check `self.data[idx].is_some()`
is an unchecked `Vec` index (outer `none` = panic).  On successful
removal the store slot is cleared, the index pushed on the free list,
`size` decremented, and the backtracking loop run over the recorded
path — but the terminal's `data_idx` is never cleared (see `pruneLoop`),
so the loop leaves tree and pool unchanged and the terminal keeps a
dangling `data_idx` into the freed slot. -/
def TrieMap.remove_and_prune {V : Type} (s : TrieMap V) (k : List Nat) :
    Option (TrieMap V × Option V) :=
  match walkIndices s.root k with
  | none => some (s, none)
  | some (t, idxs) =>
    match t.data_idx with
    | none => some (s, none)
    | some i =>
      match s.data[i]? with
      | none => none
      | some none => some (s, none)
      | some (some v) =>
        match pruneLoop k idxs k.length true s.pool s.root with
        | none => none
        | some (root', pool') =>
          some (⟨s.data.set i none, i :: s.free_indices, root', s.size - 1, pool'⟩, some v)

/-- The occupancy test of `TrieMap::entry` (trie_map.rs:502-539): the
checked walk succeeds, the terminal has a `data_idx`, and that index is in
bounds and its slot occupied. -/
def TrieMap.occupied {V : Type} (s : TrieMap V) (k : List Nat) : Bool :=
  match getNode s.root k with
  | none => false
  | some t =>
    match t.data_idx with
    | none => false
    | some i =>
      match s.data[i]? with
      | some (some _) => true
      | _ => false

/-- `TrieMap::try_insert` (trie_map.rs:1516-1521): `entry` then
`Err(value)` on an occupied entry (`entry`'s walk is read-only, so the map
is unchanged), else insert through the vacant entry.  Modelled from the
spec: entry.rs (`VacantEntry::insert`) is not in src/; per spec §4 and §7
the vacant arm inserts through the normal insert path.  The `Except`
result models `Result<&mut T, T>` with the success reference as `Unit`. -/
def TrieMap.try_insert {V : Type} (s : TrieMap V) (k : List Nat) (v : V) :
    Option (TrieMap V × Except V Unit) :=
  if s.occupied k then some (s, Except.error v)
  else (s.insert k v).map (fun s' => (s', Except.ok ()))

/-! ## Well-formedness of map states

The conjuncts below hold in every state an execution can reach (they do
NOT include `children.len() == popcount(presence)`, which the pool defect
can break; only `≥`-reachability facts that the operations genuinely
maintain).  Reachable children are the first `popcountAll` entries of the
children array: ranks of set bits are exactly `0, 1, 2, ...` in byte
order, and every checked walk only enters those positions. -/

mutual
/-- Every reachable node's bitmap only uses bit positions below 256. -/
def nodesOk : TrieNode → Bool
  | .mk mask cs _ => decide (mask < 2 ^ 256) && nodesOkList cs (popcountAll mask)

def nodesOkList : List TrieNode → Nat → Bool
  | _, 0 => true
  | [], _ + 1 => true
  | c :: cs, m + 1 => nodesOk c && nodesOkList cs m
end

mutual
/-- Every reachable node with `data_idx = some i` has an in-bounds,
occupied store slot `i` (spec §3: live `value_slot`s reference `Some`
slots). -/
def slotsOkNode {V : Type} (data : List (Option V)) : TrieNode → Bool
  | .mk mask cs d =>
    (match d with
      | none => true
      | some i =>
        match data[i]? with
        | some (some _) => true
        | _ => false)
    && slotsOkList data cs (popcountAll mask)

def slotsOkList {V : Type} (data : List (Option V)) : List TrieNode → Nat → Bool
  | _, 0 => true
  | [], _ + 1 => true
  | c :: cs, m + 1 => slotsOkNode data c && slotsOkList data cs m
end

mutual
/-- All `data_idx` values of reachable nodes, own slot first, children in
array order. -/
def slotsOf : TrieNode → List Nat
  | .mk mask cs d => d.toList ++ slotsOfList cs (popcountAll mask)

def slotsOfList : List TrieNode → Nat → List Nat
  | _, 0 => []
  | [], _ + 1 => []
  | c :: cs, m + 1 => slotsOf c ++ slotsOfList cs m
end

/-- Boolean no-duplicates check. -/
def nodupb : List Nat → Bool
  | [] => true
  | x :: xs => !(xs.contains x) && nodupb xs

/-- Every free-list entry is an in-bounds, empty store slot (spec §3,
Value Store invariant). -/
def freeOk {V : Type} (s : TrieMap V) : Bool :=
  s.free_indices.all (fun f =>
    match s.data[f]? with
    | some none => true
    | _ => false)

/-- Well-formedness of a map state: bitmaps are 256-bit, node slots are
live and mutually distinct (each `Some` slot referenced by exactly one
node, spec §3), and free-list entries are empty slots. -/
def TrieMap.WF {V : Type} (s : TrieMap V) : Bool :=
  nodesOk s.root && slotsOkNode s.data s.root && nodupb (slotsOf s.root) && freeOk s

/-! ## The traversal engine (iter.rs is not in src/) -/

/-- The (key, value) pair a node contributes for itself during traversal:
present exactly when its `data_idx` points at an occupied store slot. -/
def ownPair {V : Type} (data : List (Option V)) (d : Option Nat) (q : List Nat) :
    List (List Nat × V) :=
  match d with
  | some i =>
    match data[i]? with
    | some (some v) => [(q, v)]
    | _ => []
  | none => []

mutual
/-- Modelled from the spec: iter.rs (`Iter`/`PrefixIter::next`) is not in
src/.  Spec §4.8: the explicit-stack DFS yields the node's own (key,
value) pair first — when the node has a live `value_slot` pointing at an
occupied slot, as in trie_map.rs `collect_pairs` — then visits the present
byte edges in increasing byte order, descending into the child at the
edge's rank.  Since the ranks of the ascending set bits are exactly
`0, 1, 2, ...`, visiting edge `b` at `children[rank b]` with the guard
`rank b < children.len()` (as in trie_map.rs `collect_keys_indices` and
`count_items_recursive`) is the positional pairing of the ascending set
bytes with the children array, truncated at the shorter of the two. -/
def pairsNode {V : Type} (data : List (Option V)) : TrieNode → List Nat → List (List Nat × V)
  | .mk mask cs d, path =>
    (match d with
      | some i =>
        match data[i]? with
        | some (some v) => [(path, v)]
        | _ => []
      | none => []) ++ pairsList data cs (maskBits mask) path

def pairsList {V : Type} (data : List (Option V)) :
    List TrieNode → List Nat → List Nat → List (List Nat × V)
  | _, [], _ => []
  | [], _ :: _, _ => []
  | c :: cs, b :: bs, path => pairsNode data c (path ++ [b]) ++ pairsList data cs bs path
end

/-- `TrieMap::iter` (trie_map.rs:788-799): DFS from the root with the
empty path. -/
def iterPairs {V : Type} (s : TrieMap V) : List (List Nat × V) :=
  pairsNode s.data s.root []

/-- `TrieMap::prefix_iter` (trie_map.rs:952-1003): navigate to the node of
the prefix with the checked walk (any failure gives the empty iterator),
then run the DFS from that node with the prefix as initial path. -/
def prefixPairs {V : Type} (s : TrieMap V) (p : List Nat) : List (List Nat × V) :=
  match getNode s.root p with
  | none => []
  | some n => pairsNode s.data n p

/-- The terminal node's `data_idx` for a key, used to observe value-slot
stability. -/
def valueSlotAt {V : Type} (s : TrieMap V) (k : List Nat) : Option Nat :=
  (getNode s.root k).bind TrieNode.data_idx

/-! ## Concrete executions used by counterexamples and witnesses -/

/-- Insert, chained through the panic monad. -/
def insB {V : Type} (os : Option (TrieMap V)) (k : List Nat) (v : V) : Option (TrieMap V) :=
  os.bind (fun s => s.insert k v)

/-- Remove-and-prune (dropping the returned value), chained through the
panic monad. -/
def rapB {V : Type} (os : Option (TrieMap V)) (k : List Nat) : Option (TrieMap V) :=
  os.bind (fun s => (s.remove_and_prune k).map (fun r => r.1))

/-- The C3 scenario, first stage: insert the single key `[97]` into the
empty map, then `remove_and_prune` it.  The removal frees store slot 0
but leaves the terminal's `data_idx` dangling at it. -/
def dangleTrie : Option (TrieMap Nat) :=
  rapB (insB (some (TrieMap.new : TrieMap Nat)) [97] 1) [97]

/-- The C3 scenario, second stage: insert the fresh key `[98]`, whose
allocation pops the freed slot 0 off the free list — the slot the removed
key's node still points at. -/
def ghostTrie : Option (TrieMap Nat) := insB dangleTrie [98] 2

/-- The C5 scenario: insert the single key `[7]` into the empty map, then
drain the map with `remove_and_prune [7]`. -/
def drainTrie : Option (TrieMap Nat) :=
  rapB (insB (some (TrieMap.new : TrieMap Nat)) [7] 7) [7]

/-- A tiny well-formed two-key map (keys `[97] ↦ 10`, `[98] ↦ 20`) used by
witnesses. -/
def exTrie : TrieMap Nat :=
  ⟨[some 10, some 20], [],
    .mk (set_bit (set_bit 0 97) 98) [.mk 0 [] (some 0), .mk 0 [] (some 1)] none,
    2, SlicePool.new⟩

/-- A map with an empty tree but a non-empty pool bucket 3 (as left by a
grow-from-2 insert and a later clear, say), used against C7. -/
def exPoolTrie : TrieMap Nat :=
  ⟨[], [], TrieNode.new, 0, ⟨(List.replicate 257 ([] : List (List TrieNode))).set 3
    [List.replicate 3 TrieNode.new]⟩⟩

/-- `insert` then `remove` of the same key, iterated `N` times from a
given start state, in the panic monad (for C9). -/
def insRemIter {V : Type} (k : List Nat) (v : V) : Nat → Option (TrieMap V)
  | 0 => some TrieMap.new
  | n + 1 =>
    (insRemIter k v n).bind (fun s => (s.insert k v).map (fun s' => (s'.remove k).1))

/-- The pure path chain for key `k`: one node per byte, each with exactly
the one child, the terminal holding `d` as its `data_idx` (the tree shape
`insert k` builds from an empty map, and `remove k` leaves behind). -/
def chainNode (d : Option Nat) : List Nat → TrieNode
  | [] => .mk 0 [] d
  | b :: rest => .mk (set_bit 0 b) [chainNode d rest] none

/-- Pool states whose bucket 0 exists and whose bucket 256 is empty: what
`insert` needs to keep acquiring fresh slices (used for C9). -/
def bucketsReady (pool : SlicePool) : Prop :=
  (pool.pools[0]?).isSome ∧ pool.pools[256]? = some []

/-! ## Basic accessor lemmas -/

@[simp] theorem TrieNode.is_present_mk (p : Nat) (c : List TrieNode) (d : Option Nat) :
    (TrieNode.mk p c d).is_present = p := rfl

@[simp] theorem TrieNode.children_mk (p : Nat) (c : List TrieNode) (d : Option Nat) :
    (TrieNode.mk p c d).children = c := rfl

@[simp] theorem TrieNode.data_idx_mk (p : Nat) (c : List TrieNode) (d : Option Nat) :
    (TrieNode.mk p c d).data_idx = d := rfl

/-! ## Lemmas about the bit operations -/

theorem test_bit_zero (b : Nat) : test_bit 0 b = false := by
  simp [test_bit]

theorem test_bit_of_lt {mask b : Nat} (h : mask < 2 ^ b) : test_bit mask b = false := by
  simp [test_bit, Nat.div_eq_of_lt h]

theorem test_bit_false_mod {mask b : Nat} (h : test_bit mask b = false) :
    mask / 2 ^ b % 2 = 0 := by
  have h2 : mask / 2 ^ b % 2 < 2 := Nat.mod_lt _ (by omega)
  simp only [test_bit] at h
  rw [beq_eq_false_iff_ne] at h
  omega

theorem test_bit_set_bit_self (mask b : Nat) : test_bit (set_bit mask b) b = true := by
  unfold set_bit
  split
  · assumption
  · rename_i h
    have hpos : 0 < 2 ^ b := Nat.pos_pow_of_pos b (by omega)
    have hdiv : (mask + 2 ^ b) / 2 ^ b = mask / 2 ^ b + 1 := Nat.add_div_right mask hpos
    have hm := test_bit_false_mod (Bool.of_not_eq_true h)
    simp only [test_bit, hdiv, beq_iff_eq]
    omega

theorem test_bit_set_bit_lt {j b : Nat} (mask : Nat) (h : j < b) :
    test_bit (set_bit mask b) j = test_bit mask j := by
  unfold set_bit
  split
  · rfl
  · have hpos : 0 < 2 ^ j := Nat.pos_pow_of_pos j (by omega)
    have hsplit : 2 ^ b = 2 ^ (b - j - 1) * 2 * 2 ^ j := by
      rw [Nat.mul_assoc, ← Nat.pow_succ']
      rw [← Nat.pow_add]
      congr 1
      omega
    have hdiv : (mask + 2 ^ b) / 2 ^ j = mask / 2 ^ j + 2 ^ (b - j - 1) * 2 := by
      rw [hsplit]
      exact Nat.add_mul_div_right mask _ hpos
    have hmod : (mask / 2 ^ j + 2 ^ (b - j - 1) * 2) % 2 = mask / 2 ^ j % 2 :=
      Nat.add_mul_mod_self_right _ _ _
    simp only [test_bit]
    rw [hdiv, hmod]

theorem popcount_congr {m₁ m₂ : Nat} (c : Nat)
    (h : ∀ j, j < c → test_bit m₁ j = test_bit m₂ j) : popcount m₁ c = popcount m₂ c := by
  induction c with
  | zero => rfl
  | succ c ih =>
    simp only [popcount]
    rw [ih (fun j hj => h j (by omega)), h c (by omega)]

theorem popcount_zero (c : Nat) : popcount 0 c = 0 := by
  induction c with
  | zero => rfl
  | succ c ih => simp [popcount, ih, test_bit_zero]

theorem popcount_set_bit_of_le {c b : Nat} (mask : Nat) (h : c ≤ b) :
    popcount (set_bit mask b) c = popcount mask c :=
  popcount_congr c (fun j hj => test_bit_set_bit_lt mask (by omega))

theorem popcount_succ_le (mask d : Nat) : popcount mask d ≤ popcount mask (d + 1) := by
  simp only [popcount]
  split <;> omega

theorem popcount_le_popcount (mask : Nat) {c d : Nat} (h : c ≤ d) :
    popcount mask c ≤ popcount mask d := by
  induction d with
  | zero =>
    have hc : c = 0 := by omega
    subst hc
    exact Nat.le_refl _
  | succ d ih =>
    rcases Nat.lt_or_ge c (d + 1) with hlt | hge
    · have h1 := ih (by omega)
      have h2 := popcount_succ_le mask d
      omega
    · have hc : c = d + 1 := by omega
      subst hc
      exact Nat.le_refl _

theorem popcount_lt_popcountAll {mask b : Nat} (hb : b < 256)
    (h : test_bit mask b = true) : popcount mask b < popcountAll mask := by
  have h1 : popcount mask b < popcount mask (b + 1) := by
    simp [popcount, h]
  have h2 : popcount mask (b + 1) ≤ popcount mask 256 :=
    popcount_le_popcount mask (by omega)
  exact Nat.lt_of_lt_of_le h1 h2

theorem length_maskBitsUpTo (mask m : Nat) :
    (maskBitsUpTo mask m).length = popcount mask m := by
  induction m with
  | zero => rfl
  | succ m ih =>
    simp only [maskBitsUpTo, popcount, List.length_append, ih]
    split <;> simp

theorem mem_maskBitsUpTo {x mask m : Nat} :
    x ∈ maskBitsUpTo mask m ↔ test_bit mask x = true ∧ x < m := by
  induction m with
  | zero =>
    simp only [maskBitsUpTo, List.not_mem_nil, false_iff]
    rintro ⟨-, h⟩
    omega
  | succ m ih =>
    simp only [maskBitsUpTo, List.mem_append, ih]
    constructor
    · rintro (⟨h1, h2⟩ | hm)
      · exact ⟨h1, by omega⟩
      · by_cases hb : test_bit mask m = true
        · simp only [hb, if_true, List.mem_singleton] at hm
          subst hm
          exact ⟨hb, by omega⟩
        · simp only [hb, if_false, List.not_mem_nil] at hm
          simp only [Bool.not_eq_true] at hb
          simp [hb] at hm
    · rintro ⟨h1, h2⟩
      rcases Nat.lt_or_ge x m with hlt | hge
      · exact Or.inl ⟨h1, hlt⟩
      · have hx : x = m := by omega
        subst hx
        simp [h1]

theorem pairwise_maskBitsUpTo (mask m : Nat) :
    List.Pairwise (· < ·) (maskBitsUpTo mask m) := by
  induction m with
  | zero => simp [maskBitsUpTo]
  | succ m ih =>
    simp only [maskBitsUpTo]
    refine List.pairwise_append.mpr ⟨ih, ?_, ?_⟩
    · split <;> simp
    · intro a ha b hb
      have hmem := mem_maskBitsUpTo.mp ha
      by_cases hbit : test_bit mask m = true
      · simp only [hbit, if_true, List.mem_singleton] at hb
        subst hb
        omega
      · simp only [hbit, if_false] at hb
        simp only [Bool.not_eq_true] at hbit
        simp [hbit] at hb

theorem maskBitsUpTo_split {mask b m : Nat} (hm : b < m) (hb : test_bit mask b = true) :
    ∃ tl, maskBitsUpTo mask m = maskBitsUpTo mask b ++ b :: tl ∧ ∀ x ∈ tl, b < x := by
  induction m with
  | zero => omega
  | succ m ih =>
    rcases Nat.lt_or_ge b m with hlt | hge
    · obtain ⟨tl, htl, hgt⟩ := ih hlt
      refine ⟨tl ++ (if test_bit mask m then [m] else []), ?_, ?_⟩
      · simp only [maskBitsUpTo, htl, List.cons_append, List.append_assoc]
      · intro x hx
        rcases List.mem_append.mp hx with h | h
        · exact hgt x h
        · by_cases hbit : test_bit mask m = true
          · simp only [hbit, if_true, List.mem_singleton] at h
            subst h
            omega
          · simp only [hbit, if_false] at h
            simp only [Bool.not_eq_true] at hbit
            simp [hbit] at h
    · have hbm : b = m := by omega
      subst hbm
      exact ⟨[], by simp [maskBitsUpTo, hb], by simp⟩

/-! ## Lemmas about well-formedness and the checked walk -/

theorem nodesOk_destruct {mask : Nat} {cs : List TrieNode} {d : Option Nat}
    (h : nodesOk (.mk mask cs d) = true) :
    mask < 2 ^ 256 ∧ nodesOkList cs (popcountAll mask) = true := by
  simp only [nodesOk, Bool.and_eq_true, decide_eq_true_eq] at h
  exact h

theorem nodesOkList_get {cs : List TrieNode} {m i : Nat} {c : TrieNode}
    (h : nodesOkList cs m = true) (hg : cs[i]? = some c) (hi : i < m) :
    nodesOk c = true := by
  induction cs generalizing m i with
  | nil => simp at hg
  | cons c₀ cs ih =>
    match m with
    | 0 => omega
    | m + 1 =>
      simp only [nodesOkList, Bool.and_eq_true] at h
      match i with
      | 0 =>
        simp only [List.getElem?_cons_zero, Option.some_inj] at hg
        subst hg
        exact h.1
      | i + 1 =>
        simp only [List.getElem?_cons_succ] at hg
        exact ih h.2 hg (by omega)

theorem slotsOkList_get {V : Type} {data : List (Option V)} {cs : List TrieNode} {m i : Nat}
    {c : TrieNode} (h : slotsOkList data cs m = true) (hg : cs[i]? = some c) (hi : i < m) :
    slotsOkNode data c = true := by
  induction cs generalizing m i with
  | nil => simp at hg
  | cons c₀ cs ih =>
    match m with
    | 0 => omega
    | m + 1 =>
      simp only [slotsOkList, Bool.and_eq_true] at h
      match i with
      | 0 =>
        simp only [List.getElem?_cons_zero, Option.some_inj] at hg
        subst hg
        exact h.1
      | i + 1 =>
        simp only [List.getElem?_cons_succ] at hg
        exact ih h.2 hg (by omega)

theorem slotsOfList_mem {cs : List TrieNode} {m i : Nat} {c : TrieNode} {x : Nat}
    (hg : cs[i]? = some c) (hi : i < m) (hx : x ∈ slotsOf c) : x ∈ slotsOfList cs m := by
  induction cs generalizing m i with
  | nil => simp at hg
  | cons c₀ cs ih =>
    match m with
    | 0 => omega
    | m + 1 =>
      simp only [slotsOfList, List.mem_append]
      match i with
      | 0 =>
        simp only [List.getElem?_cons_zero, Option.some_inj] at hg
        subst hg
        exact Or.inl hx
      | i + 1 =>
        simp only [List.getElem?_cons_succ] at hg
        exact Or.inr (ih hg (by omega))

theorem byte_lt_of_test_bit {mask b : Nat} (hlt : mask < 2 ^ 256)
    (h : test_bit mask b = true) : b < 256 := by
  by_contra hge
  have h2 : mask < 2 ^ b :=
    Nat.lt_of_lt_of_le hlt (Nat.pow_le_pow_right (by omega) (by omega))
  rw [test_bit_of_lt h2] at h
  exact Bool.false_ne_true h

theorem nodesOk_child {node : TrieNode} {b : Nat} {c : TrieNode}
    (h : nodesOk node = true) (hb : test_bit node.is_present b = true)
    (hc : node.children[popcount node.is_present b]? = some c) : nodesOk c = true := by
  cases node with
  | mk mask cs d =>
    obtain ⟨hlt, hl⟩ := nodesOk_destruct h
    exact nodesOkList_get hl hc
      (popcount_lt_popcountAll (byte_lt_of_test_bit hlt hb) hb)

theorem slotsOk_child {V : Type} {data : List (Option V)} {node : TrieNode} {b : Nat}
    {c : TrieNode} (hn : nodesOk node = true) (h : slotsOkNode data node = true)
    (hb : test_bit node.is_present b = true)
    (hc : node.children[popcount node.is_present b]? = some c) :
    slotsOkNode data c = true := by
  cases node with
  | mk mask cs d =>
    obtain ⟨hlt, -⟩ := nodesOk_destruct hn
    simp only [slotsOkNode, Bool.and_eq_true] at h
    exact slotsOkList_get h.2 hc
      (popcount_lt_popcountAll (byte_lt_of_test_bit hlt hb) hb)

theorem getNode_slot_occupied {V : Type} {data : List (Option V)} {n : TrieNode}
    {k : List Nat} {t : TrieNode} {i : Nat}
    (hn : nodesOk n = true) (hs : slotsOkNode data n = true)
    (hg : getNode n k = some t) (hd : t.data_idx = some i) :
    ∃ w, data[i]? = some (some w) := by
  induction k generalizing n with
  | nil =>
    simp only [getNode, Option.some_inj] at hg
    subst hg
    cases n with
    | mk mask cs d =>
      simp only [slotsOkNode, Bool.and_eq_true] at hs
      simp only [TrieNode.data_idx] at hd
      subst hd
      have h2 : (match data[i]? with
          | some (some _) => true
          | _ => false) = true := hs.1
      match hdi : data[i]? with
      | some (some w) => exact ⟨w, rfl⟩
      | some none => rw [hdi] at h2; simp at h2
      | none => rw [hdi] at h2; simp at h2
  | cons b rest ih =>
    simp only [getNode] at hg
    split at hg
    · rename_i hb
      match hc : n.children[popcount n.is_present b]? with
      | none => rw [hc] at hg; simp at hg
      | some child =>
        rw [hc] at hg
        exact ih (nodesOk_child hn hb hc) (slotsOk_child hn hs hb hc) hg
    · simp at hg

theorem getNode_slot_mem {n : TrieNode} {k : List Nat} {t : TrieNode} {i : Nat}
    (hn : nodesOk n = true) (hg : getNode n k = some t) (hd : t.data_idx = some i) :
    i ∈ slotsOf n := by
  induction k generalizing n with
  | nil =>
    simp only [getNode, Option.some_inj] at hg
    subst hg
    cases n with
    | mk mask cs d =>
      simp only [TrieNode.data_idx] at hd
      subst hd
      simp [slotsOf]
  | cons b rest ih =>
    simp only [getNode] at hg
    split at hg
    · rename_i hb
      match hc : n.children[popcount n.is_present b]? with
      | none => rw [hc] at hg; simp at hg
      | some child =>
        rw [hc] at hg
        have hmem := ih (nodesOk_child hn hb hc) hg
        cases n with
        | mk mask cs d =>
          obtain ⟨hlt, -⟩ := nodesOk_destruct hn
          simp only [TrieNode.is_present] at hb hc ⊢
          simp only [slotsOf, List.mem_append]
          exact Or.inr (slotsOfList_mem hc
            (popcount_lt_popcountAll (byte_lt_of_test_bit hlt hb) hb) hmem)
    · simp at hg

theorem getNode_slot_mem_tail {n : TrieNode} {b : Nat} {rest : List Nat} {t : TrieNode}
    {i : Nat} (hn : nodesOk n = true) (hg : getNode n (b :: rest) = some t)
    (hd : t.data_idx = some i) :
    i ∈ slotsOfList n.children (popcountAll n.is_present) := by
  simp only [getNode] at hg
  split at hg
  · rename_i hb
    match hc : n.children[popcount n.is_present b]? with
    | none => rw [hc] at hg; simp at hg
    | some child =>
      rw [hc] at hg
      have hmem := getNode_slot_mem (nodesOk_child hn hb hc) hg hd
      cases n with
      | mk mask cs d =>
        obtain ⟨hlt, -⟩ := nodesOk_destruct hn
        simp only [TrieNode.is_present, TrieNode.children] at hb hc ⊢
        exact slotsOfList_mem hc
          (popcount_lt_popcountAll (byte_lt_of_test_bit hlt hb) hb) hmem
  · simp at hg

theorem wf_destruct {V : Type} {s : TrieMap V} (h : s.WF = true) :
    nodesOk s.root = true ∧ slotsOkNode s.data s.root = true ∧
      nodupb (slotsOf s.root) = true ∧ freeOk s = true := by
  simp only [TrieMap.WF, Bool.and_eq_true] at h
  exact ⟨h.1.1.1, h.1.1.2, h.1.2, h.2⟩

theorem freeOk_head {V : Type} {s : TrieMap V} {f : Nat} {tl : List Nat}
    (h : freeOk s = true) (hf : s.free_indices = f :: tl) : s.data[f]? = some none := by
  simp only [freeOk, List.all_eq_true, hf] at h
  have := h f (by simp)
  match hd : s.data[f]? with
  | some none => rfl
  | some (some w) => rw [hd] at this; simp at this
  | none => rw [hd] at this; simp at this

/-! ## Lemmas about `insert` -/

theorem getNode_cons_eq {node : TrieNode} {b : Nat} {rest : List Nat}
    (hb : test_bit node.is_present b = true) :
    getNode node (b :: rest) =
      match node.children[popcount node.is_present b]? with
      | none => none
      | some child => getNode child rest := by
  simp only [getNode, hb, if_true]

theorem getNode_cons_none {node : TrieNode} {b : Nat} {rest : List Nat}
    (hb : test_bit node.is_present b = false) :
    getNode node (b :: rest) = none := by
  simp only [getNode, hb, Bool.false_eq_true, if_false]

theorem insertWalk_nil {pool : SlicePool} {node : TrieNode} {j : Nat} :
    insertWalk pool node [] j =
      some (.mk node.is_present node.children (some j), pool, node.data_idx) := rfl

theorem insertWalk_cons_set {pool : SlicePool} {node : TrieNode} {b : Nat} {rest : List Nat}
    {j : Nat} {child : TrieNode} (hb : test_bit node.is_present b = true)
    (hc : node.children[popcount node.is_present b]? = some child) :
    insertWalk pool node (b :: rest) j =
      match insertWalk pool child rest j with
      | none => none
      | some (child', pool', prev) =>
        some (.mk node.is_present (node.children.set (popcount node.is_present b) child')
          node.data_idx, pool', prev) := by
  simp only [insertWalk, hb, if_true, hc]

theorem insertWalk_cons_grow {pool : SlicePool} {node : TrieNode} {b : Nat} {rest : List Nat}
    {j : Nat} {slice : List TrieNode} {pool₁ : SlicePool}
    (hb : test_bit node.is_present b = false)
    (hpg : pool.get (node.children.length + 1) = some (slice, pool₁))
    (hcond : popcount node.is_present b ≤ node.children.length ∧
      node.children.length + 1 ≤ slice.length) :
    insertWalk pool node (b :: rest) j =
      match pool₁.put (slice.take (popcount node.is_present b) ++
          (slice.drop (popcount node.is_present b + 1)).take
            (node.children.length - popcount node.is_present b)) with
      | none => none
      | some pool₂ =>
        match insertWalk pool₂ TrieNode.new rest j with
        | none => none
        | some (sub, pool₃, prev) =>
          some (.mk (set_bit node.is_present b)
            ((node.children.take (popcount node.is_present b) ++
              TrieNode.new :: node.children.drop (popcount node.is_present b) ++
              slice.drop (node.children.length + 1)).set (popcount node.is_present b) sub)
            node.data_idx,
            pool₃, prev) := by
  simp only [insertWalk, hb, Bool.false_eq_true, if_false, hpg, hcond, and_true, if_true]

theorem insertWalk_cons_grow_stuck {pool : SlicePool} {node : TrieNode} {b : Nat}
    {rest : List Nat} {j : Nat} {slice : List TrieNode} {pool₁ : SlicePool}
    (hb : test_bit node.is_present b = false)
    (hpg : pool.get (node.children.length + 1) = some (slice, pool₁))
    (hcond : ¬(popcount node.is_present b ≤ node.children.length ∧
      node.children.length + 1 ≤ slice.length)) :
    insertWalk pool node (b :: rest) j = none := by
  simp only [insertWalk, hb, Bool.false_eq_true, if_false, hpg, hcond]

theorem insertWalk_cons_panic {pool : SlicePool} {node : TrieNode} {b : Nat} {rest : List Nat}
    {j : Nat} (hb : test_bit node.is_present b = true)
    (hc : node.children[popcount node.is_present b]? = none) :
    insertWalk pool node (b :: rest) j = none := by
  simp only [insertWalk, hb, if_true, hc]

theorem insertWalk_cons_getpanic {pool : SlicePool} {node : TrieNode} {b : Nat}
    {rest : List Nat} {j : Nat} (hb : test_bit node.is_present b = false)
    (hpg : pool.get (node.children.length + 1) = none) :
    insertWalk pool node (b :: rest) j = none := by
  simp only [insertWalk, hb, Bool.false_eq_true, if_false, hpg]

theorem insertWalk_getNode {pool : SlicePool} {node : TrieNode} {k : List Nat} {j : Nat}
    {node' : TrieNode} {pool' : SlicePool} {prev : Option Nat}
    (h : insertWalk pool node k j = some (node', pool', prev)) :
    ∃ t', getNode node' k = some t' ∧ t'.data_idx = some j := by
  induction k generalizing pool node node' pool' prev with
  | nil =>
    rw [insertWalk_nil] at h
    simp only [Option.some_inj, Prod.mk.injEq] at h
    obtain ⟨h1, -, -⟩ := h
    subst h1
    exact ⟨_, rfl, rfl⟩
  | cons b rest ih =>
    cases hb : test_bit node.is_present b with
    | true =>
      cases hc : node.children[popcount node.is_present b]? with
      | none => rw [insertWalk_cons_panic hb hc] at h; exact absurd h (by simp)
      | some child =>
        rw [insertWalk_cons_set hb hc] at h
        cases hw : insertWalk pool child rest j with
        | none => rw [hw] at h; exact absurd h (by simp)
        | some res =>
          obtain ⟨child', pool'', prev''⟩ := res
          rw [hw] at h
          simp only [Option.some_inj, Prod.mk.injEq] at h
          obtain ⟨h1, h2, h3⟩ := h
          subst h1 h2 h3
          obtain ⟨t', hg, hd⟩ := ih hw
          refine ⟨t', ?_, hd⟩
          have hlen : popcount node.is_present b < node.children.length :=
            (List.getElem?_eq_some.mp hc).1
          rw [getNode_cons_eq (by simpa using hb)]
          simp only [TrieNode.is_present_mk, TrieNode.children_mk]
          rw [List.getElem?_set_self (by simpa using hlen)]
          exact hg
    | false =>
      cases hpg : pool.get (node.children.length + 1) with
      | none => rw [insertWalk_cons_getpanic hb hpg] at h; exact absurd h (by simp)
      | some res =>
        obtain ⟨slice, pool₁⟩ := res
        by_cases hcond : popcount node.is_present b ≤ node.children.length ∧
            node.children.length + 1 ≤ slice.length
        · rw [insertWalk_cons_grow hb hpg hcond] at h
          cases hpp : pool₁.put (slice.take (popcount node.is_present b) ++
              (slice.drop (popcount node.is_present b + 1)).take
                (node.children.length - popcount node.is_present b)) with
          | none => rw [hpp] at h; exact absurd h (by simp)
          | some pool₂ =>
            simp only [hpp] at h
            cases hw : insertWalk pool₂ TrieNode.new rest j with
            | none => rw [hw] at h; exact absurd h (by simp)
            | some res₂ =>
              obtain ⟨sub, pool₃, prev₃⟩ := res₂
              rw [hw] at h
              simp only [Option.some_inj, Prod.mk.injEq] at h
              obtain ⟨h1, h2, h3⟩ := h
              subst h1 h2 h3
              obtain ⟨t', hg, hd⟩ := ih hw
              refine ⟨t', ?_, hd⟩
              rw [getNode_cons_eq (by
                simp only [TrieNode.is_present_mk]
                exact test_bit_set_bit_self node.is_present b)]
              simp only [TrieNode.is_present_mk, TrieNode.children_mk]
              rw [popcount_set_bit_of_le node.is_present (Nat.le_refl b)]
              have hlen : popcount node.is_present b <
                  (node.children.take (popcount node.is_present b) ++
                    TrieNode.new :: node.children.drop (popcount node.is_present b) ++
                    slice.drop (node.children.length + 1)).length := by
                simp only [List.length_append, List.length_take, List.length_cons,
                  List.length_drop]
                omega
              rw [List.getElem?_set_self (by simpa using hlen)]
              exact hg
        · rw [insertWalk_cons_grow_stuck hb hpg hcond] at h
          exact absurd h (by simp)

theorem insertWalk_new_prev {pool : SlicePool} {k : List Nat} {j : Nat}
    {node' : TrieNode} {pool' : SlicePool} {prev : Option Nat}
    (h : insertWalk pool TrieNode.new k j = some (node', pool', prev)) : prev = none := by
  induction k generalizing pool node' pool' prev with
  | nil =>
    rw [insertWalk_nil] at h
    simp only [Option.some_inj, Prod.mk.injEq] at h
    exact h.2.2.symm
  | cons b rest ih =>
    have hb : test_bit (TrieNode.new).is_present b = false := test_bit_zero b
    cases hpg : SlicePool.get pool ((TrieNode.new).children.length + 1) with
    | none => rw [insertWalk_cons_getpanic hb hpg] at h; exact absurd h (by simp)
    | some res =>
      obtain ⟨slice, pool₁⟩ := res
      by_cases hcond : popcount (TrieNode.new).is_present b ≤ (TrieNode.new).children.length ∧
          (TrieNode.new).children.length + 1 ≤ slice.length
      · rw [insertWalk_cons_grow hb hpg hcond] at h
        cases hpp : pool₁.put (slice.take (popcount (TrieNode.new).is_present b) ++
            (slice.drop (popcount (TrieNode.new).is_present b + 1)).take
              ((TrieNode.new).children.length - popcount (TrieNode.new).is_present b)) with
        | none => rw [hpp] at h; exact absurd h (by simp)
        | some pool₂ =>
          simp only [hpp] at h
          cases hw : insertWalk pool₂ TrieNode.new rest j with
          | none => rw [hw] at h; exact absurd h (by simp)
          | some res₂ =>
            obtain ⟨sub, pool₃, prev₃⟩ := res₂
            rw [hw] at h
            simp only [Option.some_inj, Prod.mk.injEq] at h
            obtain ⟨-, -, h3⟩ := h
            subst h3
            exact ih hw
      · rw [insertWalk_cons_grow_stuck hb hpg hcond] at h
        exact absurd h (by simp)

theorem insertWalk_prev {pool : SlicePool} {node : TrieNode} {k : List Nat} {j : Nat}
    {node' : TrieNode} {pool' : SlicePool} {prev : Option Nat}
    (h : insertWalk pool node k j = some (node', pool', prev)) :
    (∃ t, getNode node k = some t ∧ prev = t.data_idx) ∨
      (getNode node k = none ∧ prev = none) := by
  induction k generalizing pool node node' pool' prev with
  | nil =>
    rw [insertWalk_nil] at h
    simp only [Option.some_inj, Prod.mk.injEq] at h
    exact Or.inl ⟨node, rfl, h.2.2.symm⟩
  | cons b rest ih =>
    cases hb : test_bit node.is_present b with
    | true =>
      cases hc : node.children[popcount node.is_present b]? with
      | none => rw [insertWalk_cons_panic hb hc] at h; exact absurd h (by simp)
      | some child =>
        rw [insertWalk_cons_set hb hc] at h
        cases hw : insertWalk pool child rest j with
        | none => rw [hw] at h; exact absurd h (by simp)
        | some res =>
          obtain ⟨child', pool'', prev''⟩ := res
          rw [hw] at h
          simp only [Option.some_inj, Prod.mk.injEq] at h
          obtain ⟨-, -, h3⟩ := h
          subst h3
          have hgn : getNode node (b :: rest) = getNode child rest := by
            rw [getNode_cons_eq hb, hc]
          rw [hgn]
          exact ih hw
    | false =>
      have hgn : getNode node (b :: rest) = none := getNode_cons_none hb
      cases hpg : pool.get (node.children.length + 1) with
      | none => rw [insertWalk_cons_getpanic hb hpg] at h; exact absurd h (by simp)
      | some res =>
        obtain ⟨slice, pool₁⟩ := res
        by_cases hcond : popcount node.is_present b ≤ node.children.length ∧
            node.children.length + 1 ≤ slice.length
        · rw [insertWalk_cons_grow hb hpg hcond] at h
          cases hpp : pool₁.put (slice.take (popcount node.is_present b) ++
              (slice.drop (popcount node.is_present b + 1)).take
                (node.children.length - popcount node.is_present b)) with
          | none => rw [hpp] at h; exact absurd h (by simp)
          | some pool₂ =>
            simp only [hpp] at h
            cases hw : insertWalk pool₂ TrieNode.new rest j with
            | none => rw [hw] at h; exact absurd h (by simp)
            | some res₂ =>
              obtain ⟨sub, pool₃, prev₃⟩ := res₂
              rw [hw] at h
              simp only [Option.some_inj, Prod.mk.injEq] at h
              obtain ⟨-, -, h3⟩ := h
              subst h3
              exact Or.inr ⟨hgn, insertWalk_new_prev hw⟩
        · rw [insertWalk_cons_grow_stuck hb hpg hcond] at h
          exact absurd h (by simp)

theorem get_of_getNode_none {V : Type} {s : TrieMap V} {k : List Nat}
    (h : getNode s.root k = none) : s.get k = some none := by
  simp only [TrieMap.get, h]

theorem get_of_slot_none {V : Type} {s : TrieMap V} {k : List Nat} {t : TrieNode}
    (hg : getNode s.root k = some t) (hd : t.data_idx = none) : s.get k = some none := by
  simp only [TrieMap.get, hg, hd]

theorem get_of_slot_occupied {V : Type} {s : TrieMap V} {k : List Nat} {t : TrieNode}
    {i : Nat} {w : V} (hg : getNode s.root k = some t) (hd : t.data_idx = some i)
    (ho : s.data[i]? = some (some w)) : s.get k = some (some w) := by
  simp only [TrieMap.get, hg, hd, ho]

theorem insert_eq_nil {V : Type} {s : TrieMap V} {k : List Nat} {v : V}
    (hfi : s.free_indices = []) :
    s.insert k v =
      match insertWalk s.pool s.root k s.data.length with
      | none => none
      | some (root', pool', prev) =>
        match prev with
        | none => some ⟨s.data ++ [some v], [], root', s.size + 1, pool'⟩
        | some p =>
          if p < (s.data ++ [some v]).length then
            some ⟨(s.data ++ [some v]).set p none, p :: [], root', s.size, pool'⟩
          else none := by
  unfold TrieMap.insert
  rw [hfi]

theorem insert_eq_cons {V : Type} {s : TrieMap V} {k : List Nat} {v : V} {f : Nat}
    {restFree : List Nat} (hfi : s.free_indices = f :: restFree)
    (hflen : f < s.data.length) :
    s.insert k v =
      match insertWalk s.pool s.root k f with
      | none => none
      | some (root', pool', prev) =>
        match prev with
        | none => some ⟨s.data.set f (some v), restFree, root', s.size + 1, pool'⟩
        | some p =>
          if p < (s.data.set f (some v)).length then
            some ⟨(s.data.set f (some v)).set p none, p :: restFree, root', s.size, pool'⟩
          else none := by
  unfold TrieMap.insert
  rw [hfi]
  simp only [hflen, if_true]

theorem insert_eq_cons_stuck {V : Type} {s : TrieMap V} {k : List Nat} {v : V} {f : Nat}
    {restFree : List Nat} (hfi : s.free_indices = f :: restFree)
    (hflen : ¬f < s.data.length) :
    s.insert k v = none := by
  unfold TrieMap.insert
  rw [hfi]
  simp only [hflen, if_false]

theorem insert_destruct {V : Type} {s : TrieMap V} {k : List Nat} {v : V} {s' : TrieMap V}
    (h : s.insert k v = some s') :
    ∃ j data₁ free₁ root' pool' prev,
      insertWalk s.pool s.root k j = some (root', pool', prev) ∧
      ((∃ restFree, s.free_indices = j :: restFree ∧ j < s.data.length ∧
          data₁ = s.data.set j (some v) ∧ free₁ = restFree) ∨
        (s.free_indices = [] ∧ j = s.data.length ∧ data₁ = s.data ++ [some v] ∧
          free₁ = [])) ∧
      ((prev = none ∧ s' = ⟨data₁, free₁, root', s.size + 1, pool'⟩) ∨
        (∃ p, prev = some p ∧ p < data₁.length ∧
          s' = ⟨data₁.set p none, p :: free₁, root', s.size, pool'⟩)) := by
  cases hfi : s.free_indices with
  | nil =>
    rw [insert_eq_nil hfi] at h
    cases hw : insertWalk s.pool s.root k s.data.length with
    | none => rw [hw] at h; exact absurd h (by simp)
    | some res =>
      obtain ⟨root', pool', prev⟩ := res
      simp only [hw] at h
      cases hprev : prev with
      | none =>
        subst hprev
        simp only [Option.some_inj] at h
        exact ⟨s.data.length, s.data ++ [some v], [], root', pool', none, hw,
          Or.inr ⟨rfl, rfl, rfl, rfl⟩, Or.inl ⟨rfl, h.symm⟩⟩
      | some p =>
        subst hprev
        simp only at h
        split at h
        · rename_i hp
          simp only [Option.some_inj] at h
          exact ⟨s.data.length, s.data ++ [some v], [], root', pool', some p, hw,
            Or.inr ⟨rfl, rfl, rfl, rfl⟩, Or.inr ⟨p, rfl, hp, h.symm⟩⟩
        · exact absurd h (by simp)
  | cons f restFree =>
    by_cases hflen : f < s.data.length
    · rw [insert_eq_cons hfi hflen] at h
      cases hw : insertWalk s.pool s.root k f with
      | none => rw [hw] at h; exact absurd h (by simp)
      | some res =>
        obtain ⟨root', pool', prev⟩ := res
        simp only [hw] at h
        cases hprev : prev with
        | none =>
          subst hprev
          simp only [Option.some_inj] at h
          exact ⟨f, s.data.set f (some v), restFree, root', pool', none, hw,
            Or.inl ⟨restFree, rfl, hflen, rfl, rfl⟩, Or.inl ⟨rfl, h.symm⟩⟩
        | some p =>
          subst hprev
          simp only at h
          split at h
          · rename_i hp
            simp only [Option.some_inj] at h
            exact ⟨f, s.data.set f (some v), restFree, root', pool', some p, hw,
              Or.inl ⟨restFree, rfl, hflen, rfl, rfl⟩, Or.inr ⟨p, rfl, hp, h.symm⟩⟩
          · exact absurd h (by simp)
    · rw [insert_eq_cons_stuck hfi hflen] at h
      exact absurd h (by simp)

theorem insert_get {V : Type} {s : TrieMap V} {k : List Nat} {v : V} {s' : TrieMap V}
    (hWF : s.WF = true) (h : s.insert k v = some s') : s'.get k = some (some v) := by
  obtain ⟨hn, hs, -, hf⟩ := wf_destruct hWF
  obtain ⟨j, data₁, free₁, root', pool', prev, hw, halloc, hfin⟩ := insert_destruct h
  obtain ⟨t', hg', hd'⟩ := insertWalk_getNode hw
  have hj : data₁[j]? = some (some v) := by
    rcases halloc with ⟨restFree, hfi, hjlen, hd1, -⟩ | ⟨hfi, hj, hd1, -⟩
    · subst hd1
      exact List.getElem?_set_self hjlen
    · subst hd1 hj
      exact List.getElem?_concat_length s.data (some v)
  rcases hfin with ⟨hprev, hs'⟩ | ⟨p, hprev, hplen, hs'⟩
  · subst hs'
    exact get_of_slot_occupied hg' hd' hj
  · subst hs' hprev
    have hpj : p ≠ j := by
      rcases insertWalk_prev hw with ⟨t, hgt, hpt⟩ | ⟨-, hcontra⟩
      · obtain ⟨w, hw'⟩ := getNode_slot_occupied hn hs hgt hpt.symm
        rcases halloc with ⟨restFree, hfi, hjlen, -, -⟩ | ⟨-, hj', -, -⟩
        · have hfree := freeOk_head hf hfi
          intro hpj
          rw [hpj, hfree] at hw'
          simp at hw'
        · subst hj'
          have hlt : p < s.data.length := (List.getElem?_eq_some.mp hw').1
          omega
      · simp at hcontra
    exact get_of_slot_occupied hg' hd' (by
      rw [List.getElem?_set_ne (by omega)]
      exact hj)

theorem insert_size_cases {V : Type} {s : TrieMap V} {k : List Nat} {v : V} {s' : TrieMap V}
    (hWF : s.WF = true) (h : s.insert k v = some s') :
    (s'.size = s.size + 1 ∧ s.get k = some none) ∨
      (s'.size = s.size ∧ ∃ w, s.get k = some (some w)) := by
  obtain ⟨hn, hs, -, -⟩ := wf_destruct hWF
  obtain ⟨j, data₁, free₁, root', pool', prev, hw, -, hfin⟩ := insert_destruct h
  rcases hfin with ⟨hprev, hs'⟩ | ⟨p, hprev, hplen, hs'⟩
  · subst hs' hprev
    refine Or.inl ⟨rfl, ?_⟩
    rcases insertWalk_prev hw with ⟨t, hgt, hpt⟩ | ⟨hgn, -⟩
    · exact get_of_slot_none hgt hpt.symm
    · exact get_of_getNode_none hgn
  · subst hs' hprev
    refine Or.inr ⟨rfl, ?_⟩
    rcases insertWalk_prev hw with ⟨t, hgt, hpt⟩ | ⟨-, hcontra⟩
    · obtain ⟨w, hw'⟩ := getNode_slot_occupied hn hs hgt hpt.symm
      exact ⟨w, get_of_slot_occupied hgt hpt.symm hw'⟩
    · simp at hcontra

/-- C1: for every key K and value V and every (well-formed) map state, a
completed `insert(K, V)` makes `get(K)` return `Some(V)`, and `len()` is
one greater than before iff K was absent before the insert, and unchanged
otherwise.  A `none` result of `insert` is a panic/UB execution (possible
only through the pool defect), about which the claim says nothing. -/
theorem C1_insert_then_get_and_len {V : Type} (s : TrieMap V) (k : List Nat) (v : V)
    (hWF : s.WF = true) :
    match s.insert k v with
    | none => True
    | some s' =>
      s'.get k = some (some v) ∧ (s'.size = s.size + 1 ↔ s.get k = some none) ∧
        (s.get k ≠ some none → s'.size = s.size) := by
  cases h : s.insert k v with
  | none => trivial
  | some s' =>
    have hc := insert_size_cases hWF h
    refine ⟨insert_get hWF h, ⟨?_, ?_⟩, ?_⟩
    · intro hsz
      rcases hc with ⟨-, h2⟩ | ⟨h1, -, -⟩
      · exact h2
      · omega
    · intro habs
      rcases hc with ⟨h1, -⟩ | ⟨-, w, h2⟩
      · exact h1
      · rw [habs] at h2
        simp at h2
    · intro hne
      rcases hc with ⟨-, h2⟩ | ⟨h1, -, -⟩
      · exact absurd h2 hne
      · exact h1

/-- Witness for C1: the empty map is well-formed and the theorem applies
to inserting key `[97]` with value `5` into it. -/
theorem C1_insert_then_get_and_len_witness :
    match (TrieMap.new : TrieMap Nat).insert [97] 5 with
    | none => True
    | some s' =>
      s'.get [97] = some (some 5) ∧
        (s'.size = (TrieMap.new : TrieMap Nat).size + 1 ↔
          (TrieMap.new : TrieMap Nat).get [97] = some none) ∧
        ((TrieMap.new : TrieMap Nat).get [97] ≠ some none →
          s'.size = (TrieMap.new : TrieMap Nat).size) :=
  C1_insert_then_get_and_len TrieMap.new [97] 5 (by decide)

/-! ## C8: `try_insert` -/

theorem occupied_iff_get {V : Type} {s : TrieMap V} {k : List Nat} :
    s.occupied k = true ↔ ∃ w, s.get k = some (some w) := by
  unfold TrieMap.occupied TrieMap.get
  cases hg : getNode s.root k with
  | none => simp
  | some t =>
    cases hd : t.data_idx with
    | none => simp [hd]
    | some i =>
      cases ho : s.data[i]? with
      | none => simp [hd, ho]
      | some slot =>
        cases slot with
        | none => simp [hd, ho]
        | some w => simp [hd, ho]

/-- C8: `try_insert(K, V)` returns the rejected value `V` as the error and
leaves the entire map state unchanged when K is present; when K is absent
it inserts through the normal insert path and returns success.  (A `none`
overall result is a panicking insert execution.) -/
theorem C8_try_insert_present_rejects_absent_inserts {V : Type} (s : TrieMap V)
    (k : List Nat) (v : V) :
    s.try_insert k v =
      match s.get k with
      | some (some _) => some (s, Except.error v)
      | _ => (s.insert k v).map (fun s' => (s', Except.ok ())) := by
  unfold TrieMap.try_insert
  by_cases hocc : s.occupied k = true
  · obtain ⟨w, hg⟩ := occupied_iff_get.mp hocc
    rw [hg, if_pos hocc]
  · rw [if_neg (by simpa using hocc)]
    cases hg : s.get k with
    | none => rfl
    | some slot =>
      cases slot with
      | none => rfl
      | some w => exact absurd (occupied_iff_get.mpr ⟨w, hg⟩) hocc

/-! ## C7: `clear` -/

theorem clear_get {V : Type} (s : TrieMap V) (k : List Nat) :
    (s.clear).get k = some none := by
  cases k with
  | nil => rfl
  | cons b rest =>
    unfold TrieMap.get
    rw [show (s.clear).root = TrieNode.new from rfl,
      getNode_cons_none (by exact test_bit_zero b)]

/-- C7 counterexample: `clear()` does not touch the pool, so a map whose
pool bucket 3 holds one recycled slice still holds it after `clear()` —
the claim that clear empties the Array Pool free lists is false. -/
theorem C7_counterexample :
    ((exPoolTrie.clear).pool.pools[3]?).map List.length = some 1 ∧
      ¬((exPoolTrie.clear).pool.pools[3]?).map List.length = some 0 := by
  constructor
  · rfl
  · intro h
    rw [show ((exPoolTrie.clear).pool.pools[3]?).map List.length = some 1 from rfl] at h
    simp at h

/-- C7 amended: `clear()` resets the value store, the free list, the root
and the size (so the map is observably empty: every lookup misses), but it
leaves the Array Pool exactly as it was — the pool is emptied only when
the map is dropped. -/
theorem C7_clear_resets_map_but_keeps_pool {V : Type} (s : TrieMap V) :
    s.clear.data = [] ∧ s.clear.free_indices = [] ∧ s.clear.root = TrieNode.new ∧
      s.clear.size = 0 ∧ s.clear.pool = s.pool ∧ ∀ k, (s.clear).get k = some none :=
  ⟨rfl, rfl, rfl, rfl, rfl, clear_get s⟩

/-! ## C2: the pool probes a single bucket -/

/-- C2: evaluating `SlicePool::get` at the failing inputs.  First: with a
recycled slice of length 3 filed in bucket 3, `get(3)` returns a freshly
allocated slice and leaves bucket 3 untouched (it probed bucket
`3.max(256) = 256` instead).  Second: with a recycled slice of length 256
in the pool, `get(3)` returns that 256-length slice for the length-3
request. -/
theorem C2_get_probes_wrong_bucket :
    ((SlicePool.new.put (List.replicate 3 TrieNode.new)).bind
        (fun p => (p.get 3).map (fun r => (r.1.length, (r.2.pools[3]?).map List.length)))) =
      some (3, some 1) ∧
    ((SlicePool.new.put (List.replicate 256 TrieNode.new)).bind
        (fun p => (p.get 3).map (fun r => r.1.length))) = some 256 := by
  constructor
  · rfl
  · rfl

/-! ## Support for C6 and C10 -/

theorem get_some_destruct {V : Type} {s : TrieMap V} {k : List Nat} {w : V}
    (h : s.get k = some (some w)) :
    ∃ t i, getNode s.root k = some t ∧ t.data_idx = some i ∧ s.data[i]? = some (some w) := by
  unfold TrieMap.get at h
  cases hg : getNode s.root k with
  | none => rw [hg] at h; simp at h
  | some t =>
    rw [hg] at h
    cases hd : t.data_idx with
    | none => simp only [hd] at h; simp at h
    | some i =>
      simp only [hd] at h
      cases ho : s.data[i]? with
      | none => rw [ho] at h; simp at h
      | some slot =>
        rw [ho] at h
        simp only [Option.some_inj] at h
        exact ⟨t, i, rfl, hd, by rw [ho, h]⟩

theorem getNode_cons_inv {node : TrieNode} {b : Nat} {rest : List Nat} {t : TrieNode}
    (h : getNode node (b :: rest) = some t) :
    test_bit node.is_present b = true ∧
      ∃ child, node.children[popcount node.is_present b]? = some child ∧
        getNode child rest = some t := by
  cases hb : test_bit node.is_present b with
  | false => rw [getNode_cons_none hb] at h; simp at h
  | true =>
    rw [getNode_cons_eq hb] at h
    cases hc : node.children[popcount node.is_present b]? with
    | none => rw [hc] at h; simp at h
    | some child =>
      rw [hc] at h
      exact ⟨rfl, child, rfl, h⟩

theorem insertWalk_of_getNode {pool : SlicePool} {node : TrieNode} {k : List Nat} {j : Nat}
    {t : TrieNode} (hg : getNode node k = some t) :
    ∃ node', insertWalk pool node k j = some (node', pool, t.data_idx) := by
  induction k generalizing node with
  | nil =>
    simp only [getNode, Option.some_inj] at hg
    subst hg
    exact ⟨_, insertWalk_nil⟩
  | cons b rest ih =>
    obtain ⟨hb, child, hc, hg'⟩ := getNode_cons_inv hg
    obtain ⟨child', hw⟩ := ih hg'
    refine ⟨.mk node.is_present
      (node.children.set (popcount node.is_present b) child') node.data_idx, ?_⟩
    rw [insertWalk_cons_set hb hc, hw]

theorem insert_total {V : Type} {s : TrieMap V} {k : List Nat} {v : V}
    (hWF : s.WF = true)
    (hwalk : ∀ j, ∃ r, insertWalk s.pool s.root k j = some r) :
    ∃ s', s.insert k v = some s' := by
  obtain ⟨hn, hs, -, hf⟩ := wf_destruct hWF
  have hprev_lt : ∀ {j root' pool' p}, insertWalk s.pool s.root k j = some (root', pool', some p) →
      p < s.data.length := by
    intro j root' pool' p hw
    rcases insertWalk_prev hw with ⟨t, hgt, hpt⟩ | ⟨-, hcontra⟩
    · obtain ⟨w, hw'⟩ := getNode_slot_occupied hn hs hgt hpt.symm
      exact (List.getElem?_eq_some.mp hw').1
    · simp at hcontra
  cases hfi : s.free_indices with
  | nil =>
    rw [insert_eq_nil hfi]
    obtain ⟨⟨root', pool', prev⟩, hw⟩ := hwalk s.data.length
    rw [hw]
    cases prev with
    | none => exact ⟨_, rfl⟩
    | some p =>
      have hp : p < (s.data ++ [some v]).length := by
        have := hprev_lt hw
        simp only [List.length_append, List.length_cons, List.length_nil]
        omega
      simp only [hp, if_true]
      exact ⟨_, rfl⟩
  | cons f restFree =>
    have hflen : f < s.data.length := (List.getElem?_eq_some.mp (freeOk_head hf hfi)).1
    rw [insert_eq_cons hfi hflen]
    obtain ⟨⟨root', pool', prev⟩, hw⟩ := hwalk f
    rw [hw]
    cases prev with
    | none => exact ⟨_, rfl⟩
    | some p =>
      have hp : p < (s.data.set f (some v)).length := by
        have := hprev_lt hw
        simp only [List.length_set]
        omega
      simp only [hp, if_true]
      exact ⟨_, rfl⟩

mutual
theorem slotsOk_mem_occupied {V : Type} {data : List (Option V)} :
    ∀ (n : TrieNode), slotsOkNode data n = true →
      ∀ i ∈ slotsOf n, ∃ w, data[i]? = some (some w)
  | .mk mask cs d => fun h i hi => by
    simp only [slotsOf, List.mem_append] at hi
    simp only [slotsOkNode, Bool.and_eq_true] at h
    rcases hi with hown | htail
    · cases hd : d with
      | none => rw [hd] at hown; simp at hown
      | some i₀ =>
        rw [hd] at hown
        simp only [Option.toList_some, List.mem_singleton] at hown
        subst hown
        have h2 : (match data[i]? with
            | some (some _) => true
            | _ => false) = true := by
          have := h.1
          rw [hd] at this
          exact this
        match ho : data[i]? with
        | some (some w) => exact ⟨w, rfl⟩
        | some none => rw [ho] at h2; simp at h2
        | none => rw [ho] at h2; simp at h2
    · exact slotsOkList_mem_occupied cs (popcountAll mask) h.2 i htail

theorem slotsOkList_mem_occupied {V : Type} {data : List (Option V)} :
    ∀ (cs : List TrieNode) (m : Nat), slotsOkList data cs m = true →
      ∀ i ∈ slotsOfList cs m, ∃ w, data[i]? = some (some w)
  | _, 0 => fun h i hi => by simp [slotsOfList] at hi
  | [], _ + 1 => fun h i hi => by simp [slotsOfList] at hi
  | c :: cs, m + 1 => fun h i hi => by
    simp only [slotsOfList, List.mem_append] at hi
    simp only [slotsOkList, Bool.and_eq_true] at h
    rcases hi with h1 | h2
    · exact slotsOk_mem_occupied c h.1 i h1
    · exact slotsOkList_mem_occupied cs m h.2 i h2
end

theorem getNode_cons_irrel {mask : Nat} {cs : List TrieNode} {d₁ d₂ : Option Nat} {b : Nat}
    {rest : List Nat} :
    getNode (.mk mask cs d₁) (b :: rest) = getNode (.mk mask cs d₂) (b :: rest) := by
  cases hb : test_bit mask b with
  | false =>
    rw [getNode_cons_none (by simpa using hb), getNode_cons_none (by simpa using hb)]
  | true =>
    rw [getNode_cons_eq (by simpa using hb), getNode_cons_eq (by simpa using hb)]
    simp only [TrieNode.children_mk, TrieNode.is_present_mk]

theorem removeNode_nil_occupied {V : Type} {data : List (Option V)} {node : TrieNode}
    {i : Nat} {w : V} (hd : node.data_idx = some i) (ho : data[i]? = some (some w)) :
    removeNode data node [] = (.mk node.is_present node.children none, some i) := by
  simp only [removeNode, hd, ho]

theorem remove_eq {V : Type} {s : TrieMap V} {k : List Nat} {root' : TrieNode} {i : Nat}
    (h : removeNode s.data s.root k = (root', some i)) :
    s.remove k =
      (⟨s.data.set i none, i :: s.free_indices, root', s.size - 1, s.pool⟩,
        (s.data[i]?).bind id) := by
  unfold TrieMap.remove
  rw [h]

theorem slotsOf_eq (n : TrieNode) :
    slotsOf n = n.data_idx.toList ++ slotsOfList n.children (popcountAll n.is_present) := by
  cases n
  rfl

theorem slotsOkNode_tail {V : Type} {data : List (Option V)} {n : TrieNode}
    (h : slotsOkNode data n = true) :
    slotsOkList data n.children (popcountAll n.is_present) = true := by
  cases n with
  | mk mask cs d =>
    simp only [slotsOkNode, Bool.and_eq_true] at h
    exact h.2

/-- C6 counterexample: inserting the same key twice moves the value slot:
after `insert "a" 1` the terminal node's slot is 0, and after a second
`insert "a" 2` it is 1 — the slot is not overwritten in place. -/
theorem C6_counterexample :
    ((TrieMap.new : TrieMap Nat).insert [97] 1).bind
        (fun s₁ => (s₁.insert [97] 2).map
          (fun s₂ => (valueSlotAt s₁ [97], valueSlotAt s₂ [97]))) =
      some (some 0, some 1) ∧ (some 0 : Option Nat) ≠ some 1 := by
  refine ⟨by rfl, by simp⟩

/-- C6 amended: on a key K that is already present with a live slot `i`,
`insert(K, V)` allocates a new store slot `j` (the most recently freed
index, else a fresh append), points the terminal node at `j`, writes V
there, and frees the old slot `i`; `i ≠ j`, and `size` is unchanged. -/
theorem C6_overwrite_allocates_fresh_slot {V : Type} (s : TrieMap V) (k : List Nat)
    (v w : V) (hWF : s.WF = true) (hp : s.get k = some (some w)) :
    ∃ s' i j, s.insert k v = some s' ∧ valueSlotAt s k = some i ∧
      valueSlotAt s' k = some j ∧ i ≠ j ∧ s'.data[j]? = some (some v) ∧
      s'.data[i]? = some none ∧ s'.size = s.size := by
  obtain ⟨hn, hs, -, hf⟩ := wf_destruct hWF
  obtain ⟨t, i, hg, hd, ho⟩ := get_some_destruct hp
  have hwalk : ∀ j, ∃ r, insertWalk s.pool s.root k j = some r := fun j => by
    obtain ⟨node', hw⟩ := @insertWalk_of_getNode s.pool s.root k j t hg
    exact ⟨_, hw⟩
  obtain ⟨s', hins⟩ := insert_total hWF hwalk
  obtain ⟨j, data₁, free₁, root', pool', prev, hw, halloc, hfin⟩ := insert_destruct hins
  have hj : data₁[j]? = some (some v) := by
    rcases halloc with ⟨restFree, -, hjlen, hd1, -⟩ | ⟨-, hjl, hd1, -⟩
    · subst hd1
      exact List.getElem?_set_self hjlen
    · subst hd1 hjl
      exact List.getElem?_concat_length s.data (some v)
  have hij : i ≠ j := by
    rcases halloc with ⟨restFree, hfi, -, -, -⟩ | ⟨-, hjl, -, -⟩
    · have hfree := freeOk_head hf hfi
      intro hij
      rw [← hij, ho] at hfree
      simp at hfree
    · subst hjl
      have hlt : i < s.data.length := (List.getElem?_eq_some.mp ho).1
      omega
  have hprev : prev = some i := by
    rcases insertWalk_prev hw with ⟨t', hgt, hpt⟩ | ⟨hgn, -⟩
    · rw [hg] at hgt
      have ht : t' = t := (Option.some_inj.mp hgt).symm
      rw [hpt, ht, hd]
    · rw [hg] at hgn
      simp at hgn
  rcases hfin with ⟨hc, -⟩ | ⟨p, hpeq, hplen, hs'⟩
  · rw [hprev] at hc
    simp at hc
  · rw [hprev] at hpeq
    have hpi : p = i := Option.some_inj.mp hpeq.symm
    rw [hpi] at hs' hplen
    subst hs'
    obtain ⟨t', hg', hd'⟩ := insertWalk_getNode hw
    refine ⟨_, i, j, hins, ?_, ?_, hij, ?_, ?_, rfl⟩
    · unfold valueSlotAt
      rw [hg]
      exact hd
    · unfold valueSlotAt
      rw [show (⟨data₁.set i none, i :: free₁, root', s.size, pool'⟩ :
          TrieMap V).root = root' from rfl]
      rw [hg']
      exact hd'
    · rw [show (⟨data₁.set i none, i :: free₁, root', s.size, pool'⟩ :
          TrieMap V).data = data₁.set i none from rfl]
      rw [List.getElem?_set_ne (by omega)]
      exact hj
    · rw [show (⟨data₁.set i none, i :: free₁, root', s.size, pool'⟩ :
          TrieMap V).data = data₁.set i none from rfl]
      exact List.getElem?_set_self hplen

/-- Witness for C6's amended statement at a concrete two-key map. -/
theorem C6_overwrite_allocates_fresh_slot_witness :
    ∃ s' i j, exTrie.insert [97] 77 = some s' ∧ valueSlotAt exTrie [97] = some i ∧
      valueSlotAt s' [97] = some j ∧ i ≠ j ∧ s'.data[j]? = some (some 77) ∧
      s'.data[i]? = some none ∧ s'.size = exTrie.size :=
  C6_overwrite_allocates_fresh_slot exTrie [97] 77 10 (by decide) (by decide)


theorem TrieNode.eta (n : TrieNode) :
    TrieNode.mk n.is_present n.children n.data_idx = n := by
  cases n
  rfl

theorem remove_nil_frame {V : Type} {s' : TrieMap V} {j : Nat} {v : V}
    (hroot : s'.root.data_idx = some j)
    (hj : s'.data[j]? = some (some v))
    (hn : nodesOk s'.root = true)
    (hnl : ∀ i'', i'' ∈ slotsOfList s'.root.children (popcountAll s'.root.is_present) →
      i'' ≠ j) :
    (s'.remove []).2 = some v ∧
      ∀ k', k' ≠ [] → ((s'.remove []).1).get k' = s'.get k' := by
  have hrem := removeNode_nil_occupied hroot hj
  have heta : TrieNode.mk s'.root.is_present s'.root.children (some j) = s'.root := by
    rw [← hroot]
    exact TrieNode.eta s'.root
  rw [remove_eq hrem]
  constructor
  · rw [hj]
    rfl
  · intro k' hk'
    cases k' with
    | nil => exact absurd rfl hk'
    | cons b rest =>
      have hgeq : getNode (TrieNode.mk s'.root.is_present s'.root.children none)
          (b :: rest) = getNode s'.root (b :: rest) := by
        rw [← heta]
        exact getNode_cons_irrel
      show (⟨s'.data.set j none, j :: s'.free_indices,
        TrieNode.mk s'.root.is_present s'.root.children none, s'.size - 1,
        s'.pool⟩ : TrieMap V).get (b :: rest) = s'.get (b :: rest)
      unfold TrieMap.get
      simp only
      rw [hgeq]
      cases hgt : getNode s'.root (b :: rest) with
      | none => rfl
      | some t'' =>
        cases hdt : t''.data_idx with
        | none => simp only [hdt]
        | some i'' =>
          simp only [hdt]
          have hmem := getNode_slot_mem_tail hn hgt hdt
          rw [List.getElem?_set_ne (Ne.symm (hnl i'' hmem))]

/-- C10: the empty byte sequence is a valid key whose value lives at the
root node: `insert([], V)` always completes, after it `get([])` is
`Some(V)` and `len()` is counted exactly as for any other key (up by one
iff `[]` was absent); `remove([])` then returns `Some(V)` and leaves every
other key's lookup unchanged. -/
theorem C10_empty_key_at_root {V : Type} (s : TrieMap V) (v : V) (hWF : s.WF = true) :
    ∃ s', s.insert [] v = some s' ∧ s'.get [] = some (some v) ∧
      (s.get [] = some none → s'.size = s.size + 1) ∧
      (∀ w, s.get [] = some (some w) → s'.size = s.size) ∧
      (s'.remove []).2 = some v ∧
      ∀ k', k' ≠ [] → ((s'.remove []).1).get k' = s'.get k' := by
  obtain ⟨hn, hs, -, hf⟩ := wf_destruct hWF
  have hwalk : ∀ j, ∃ r, insertWalk s.pool s.root [] j = some r :=
    fun j => ⟨_, insertWalk_nil⟩
  obtain ⟨s', hins⟩ := insert_total hWF hwalk
  refine ⟨s', hins, insert_get hWF hins, ?_, ?_, ?_⟩
  · intro habs
    rcases insert_size_cases hWF hins with ⟨h1, -⟩ | ⟨-, w, h2⟩
    · exact h1
    · rw [habs] at h2
      simp at h2
  · intro w hw
    rcases insert_size_cases hWF hins with ⟨-, h2⟩ | ⟨h1, -⟩
    · rw [hw] at h2
      simp at h2
    · exact h1
  · obtain ⟨j, data₁, free₁, root', pool', prev, hw, halloc, hfin⟩ := insert_destruct hins
    rw [insertWalk_nil] at hw
    simp only [Option.some_inj, Prod.mk.injEq] at hw
    obtain ⟨hroot', hpool', hprev⟩ := hw
    subst hroot' hpool' hprev
    have hj1 : data₁[j]? = some (some v) := by
      rcases halloc with ⟨restFree, -, hjlen, hd1, -⟩ | ⟨-, hjl, hd1, -⟩
      · subst hd1
        exact List.getElem?_set_self hjlen
      · subst hd1 hjl
        exact List.getElem?_concat_length s.data (some v)
    have hjnotlive : ∀ w', s.data[j]? ≠ some (some w') := by
      intro w' hcon
      rcases halloc with ⟨restFree, hfi, -, -, -⟩ | ⟨-, hjl, -, -⟩
      · have hfree := freeOk_head hf hfi
        rw [hfree] at hcon
        simp at hcon
      · subst hjl
        have := (List.getElem?_eq_some.mp hcon).1
        omega
    have hnroot : nodesOk (TrieNode.mk s.root.is_present s.root.children (some j)) = true := by
      have heq : nodesOk (TrieNode.mk s.root.is_present s.root.children (some j)) =
          nodesOk (TrieNode.mk s.root.is_present s.root.children s.root.data_idx) := rfl
      rw [heq, TrieNode.eta]
      exact hn
    have hnl : ∀ i'', i'' ∈ slotsOfList s.root.children (popcountAll s.root.is_present) →
        i'' ≠ j := by
      intro i'' hmem hcon
      subst hcon
      obtain ⟨w', hww⟩ := slotsOkList_mem_occupied s.root.children
        (popcountAll s.root.is_present) (slotsOkNode_tail hs) i'' hmem
      exact hjnotlive w' hww
    rcases hfin with ⟨-, hs'⟩ | ⟨p, hpsome, hplen, hs'⟩
    · subst hs'
      exact remove_nil_frame rfl hj1 hnroot hnl
    · subst hs'
      have hps : s.root.data_idx = some p := hpsome
      obtain ⟨w', hpw⟩ := getNode_slot_occupied hn hs
        (rfl : getNode s.root [] = some s.root) hps
      have hpj : p ≠ j := fun hcon => hjnotlive w' (by rw [← hcon]; exact hpw)
      refine remove_nil_frame rfl ?_ hnroot hnl
      show (data₁.set p none)[j]? = some (some v)
      rw [List.getElem?_set_ne hpj]
      exact hj1

/-- Witness for C10 at a concrete two-key map. -/
theorem C10_empty_key_at_root_witness :
    ∃ s', exTrie.insert [] 3 = some s' ∧ s'.get [] = some (some 3) ∧
      (exTrie.get [] = some none → s'.size = exTrie.size + 1) ∧
      (∀ w, exTrie.get [] = some (some w) → s'.size = exTrie.size) ∧
      (s'.remove []).2 = some 3 ∧
      ∀ k', k' ≠ [] → ((s'.remove []).1).get k' = s'.get k' :=
  C10_empty_key_at_root exTrie 3 (by decide)


/-! ## C9: the value store does not grow under insert/remove cycles -/

theorem SlicePool.get_fresh {pool : SlicePool} {len : Nat}
    (h : pool.pools[256]? = some []) (hl : len ≤ 256) :
    pool.get len = some (List.replicate len TrieNode.new, pool) := by
  simp only [SlicePool.get, Nat.max_eq_right hl, h]

theorem SlicePool.put_nil_ready {pool : SlicePool} (h : bucketsReady pool) :
    ∃ pool₂, pool.put [] = some pool₂ ∧ bucketsReady pool₂ := by
  obtain ⟨h0, h256⟩ := h
  cases hb0 : pool.pools[0]? with
  | none => rw [hb0] at h0; simp at h0
  | some b0 =>
    refine ⟨⟨pool.pools.set 0 ([] :: b0)⟩, ?_, ?_, ?_⟩
    · unfold SlicePool.put
      simp only [List.length_nil, hb0]
    · have hlen : 0 < pool.pools.length := (List.getElem?_eq_some.mp hb0).1
      rw [List.getElem?_set_self hlen]
      rfl
    · rw [List.getElem?_set_ne (by omega)]
      exact h256

theorem insertWalk_new_ready {pool : SlicePool} {k : List Nat} {j : Nat}
    (h : bucketsReady pool) :
    ∃ pool₂, insertWalk pool TrieNode.new k j = some (chainNode (some j) k, pool₂, none) ∧
      bucketsReady pool₂ := by
  induction k generalizing pool with
  | nil => exact ⟨pool, insertWalk_nil, h⟩
  | cons b rest ih =>
    have hb : test_bit (TrieNode.new).is_present b = false := test_bit_zero b
    have hpg : pool.get ((TrieNode.new).children.length + 1) =
        some (List.replicate 1 TrieNode.new, pool) :=
      SlicePool.get_fresh h.2
        (by rw [show (TrieNode.new).children = ([] : List TrieNode) from rfl]; simp)
    have hcond : popcount (TrieNode.new).is_present b ≤ (TrieNode.new).children.length ∧
        (TrieNode.new).children.length + 1 ≤ (List.replicate 1 TrieNode.new).length := by
      constructor
      · rw [show (TrieNode.new).is_present = 0 from rfl, popcount_zero]
        exact Nat.zero_le _
      · rw [show (TrieNode.new).children = ([] : List TrieNode) from rfl]
        simp
    rw [insertWalk_cons_grow hb hpg hcond]
    obtain ⟨pool₂, hput, hready₂⟩ := SlicePool.put_nil_ready h
    have hputarg : (List.replicate 1 TrieNode.new).take
          (popcount (TrieNode.new).is_present b) ++
        ((List.replicate 1 TrieNode.new).drop (popcount (TrieNode.new).is_present b + 1)).take
          ((TrieNode.new).children.length - popcount (TrieNode.new).is_present b) =
        ([] : List TrieNode) := by
      rw [show (TrieNode.new).is_present = 0 from rfl, popcount_zero]
      rfl
    rw [hputarg]
    simp only [hput]
    obtain ⟨pool₃, hw, hready₃⟩ := ih hready₂
    simp only [hw]
    refine ⟨pool₃, ?_, hready₃⟩
    have hcs : ((TrieNode.new).children.take (popcount (TrieNode.new).is_present b) ++
        TrieNode.new :: (TrieNode.new).children.drop (popcount (TrieNode.new).is_present b) ++
        (List.replicate 1 TrieNode.new).drop ((TrieNode.new).children.length + 1)).set
          (popcount (TrieNode.new).is_present b) (chainNode (some j) rest) =
        [chainNode (some j) rest] := by
      rw [show (TrieNode.new).is_present = 0 from rfl, popcount_zero]
      rfl
    rw [hcs]
    rfl

theorem insertWalk_chain {pool : SlicePool} {k : List Nat} {j : Nat} :
    insertWalk pool (chainNode none k) k j = some (chainNode (some j) k, pool, none) := by
  induction k generalizing pool with
  | nil => exact insertWalk_nil
  | cons b rest ih =>
    have hb : test_bit (chainNode none (b :: rest)).is_present b = true := by
      rw [show (chainNode none (b :: rest)).is_present = set_bit 0 b from rfl]
      exact test_bit_set_bit_self 0 b
    have hidx : popcount (chainNode none (b :: rest)).is_present b = 0 := by
      rw [show (chainNode none (b :: rest)).is_present = set_bit 0 b from rfl,
        popcount_set_bit_of_le 0 (Nat.le_refl b), popcount_zero]
    have hc : (chainNode none (b :: rest)).children[popcount
        (chainNode none (b :: rest)).is_present b]? = some (chainNode none rest) := by
      rw [hidx]
      rfl
    rw [insertWalk_cons_set hb hc]
    simp only [ih]
    have hset : (chainNode none (b :: rest)).children.set
        (popcount (chainNode none (b :: rest)).is_present b) (chainNode (some j) rest) =
        [chainNode (some j) rest] := by
      rw [hidx]
      rfl
    rw [hset]
    rfl

theorem removeNode_cons_eq {V : Type} {data : List (Option V)} {node : TrieNode} {b : Nat}
    {rest : List Nat} {child : TrieNode} (hb : test_bit node.is_present b = true)
    (hc : node.children[popcount node.is_present b]? = some child) :
    removeNode data node (b :: rest) =
      (.mk node.is_present
        (node.children.set (popcount node.is_present b) (removeNode data child rest).1)
        node.data_idx, (removeNode data child rest).2) := by
  simp only [removeNode, hb, if_true, hc]

theorem removeNode_chain {V : Type} {data : List (Option V)} {k : List Nat} {i : Nat}
    {w : V} (ho : data[i]? = some (some w)) :
    removeNode data (chainNode (some i) k) k = (chainNode none k, some i) := by
  induction k with
  | nil =>
    exact removeNode_nil_occupied rfl ho
  | cons b rest ih =>
    have hb : test_bit (chainNode (some i) (b :: rest)).is_present b = true := by
      rw [show (chainNode (some i) (b :: rest)).is_present = set_bit 0 b from rfl]
      exact test_bit_set_bit_self 0 b
    have hidx : popcount (chainNode (some i) (b :: rest)).is_present b = 0 := by
      rw [show (chainNode (some i) (b :: rest)).is_present = set_bit 0 b from rfl,
        popcount_set_bit_of_le 0 (Nat.le_refl b), popcount_zero]
    have hc : (chainNode (some i) (b :: rest)).children[popcount
        (chainNode (some i) (b :: rest)).is_present b]? = some (chainNode (some i) rest) := by
      rw [hidx]
      rfl
    rw [removeNode_cons_eq hb hc]
    simp only [ih]
    have hset : (chainNode (some i) (b :: rest)).children.set
        (popcount (chainNode (some i) (b :: rest)).is_present b) (chainNode none rest) =
        [chainNode none rest] := by
      rw [hidx]
      rfl
    rw [hset]
    rfl

theorem bucketsReady_new : bucketsReady SlicePool.new := ⟨rfl, rfl⟩

theorem insRem_round_new {V : Type} (k : List Nat) (v : V) :
    ∃ pool₁, ((TrieMap.new : TrieMap V).insert k v).map (fun s' => (s'.remove k).1) =
      some ⟨[none], [0], chainNode none k, 0, pool₁⟩ ∧ bucketsReady pool₁ := by
  obtain ⟨pool₁, hw, hready⟩ := @insertWalk_new_ready SlicePool.new k 0 bucketsReady_new
  refine ⟨pool₁, ?_, hready⟩
  have hins : (TrieMap.new : TrieMap V).insert k v =
      some ⟨[some v], [], chainNode (some 0) k, 1, pool₁⟩ := by
    rw [insert_eq_nil rfl,
      show (TrieMap.new : TrieMap V).pool = SlicePool.new from rfl,
      show (TrieMap.new : TrieMap V).root = TrieNode.new from rfl,
      show (TrieMap.new : TrieMap V).data = ([] : List (Option V)) from rfl,
      show (TrieMap.new : TrieMap V).size = 0 from rfl]
    simp only [List.length_nil, List.nil_append, hw]
  rw [hins]
  have hrem : ((⟨[some v], [], chainNode (some 0) k, 1, pool₁⟩ : TrieMap V).remove k).1 =
      ⟨[none], [0], chainNode none k, 0, pool₁⟩ := by
    unfold TrieMap.remove
    simp only [@removeNode_chain V [some v] k 0 v rfl]
    rfl
  rw [show ((some (⟨[some v], [], chainNode (some 0) k, 1, pool₁⟩ : TrieMap V)).map
    (fun s' => (s'.remove k).1)) = some ((⟨[some v], [], chainNode (some 0) k, 1,
    pool₁⟩ : TrieMap V).remove k).1 from rfl]
  rw [hrem]

theorem insRem_round_fix {V : Type} (k : List Nat) (v : V) (pool : SlicePool) :
    ((⟨[none], [0], chainNode none k, 0, pool⟩ : TrieMap V).insert k v).map
        (fun s' => (s'.remove k).1) =
      some ⟨[none], [0], chainNode none k, 0, pool⟩ := by
  have hins : (⟨[none], [0], chainNode none k, 0, pool⟩ : TrieMap V).insert k v =
      some ⟨[some v], [], chainNode (some 0) k, 1, pool⟩ := by
    rw [insert_eq_cons rfl (by simp)]
    simp only [insertWalk_chain]
    rfl
  rw [hins]
  have hrem : ((⟨[some v], [], chainNode (some 0) k, 1, pool⟩ : TrieMap V).remove k).1 =
      ⟨[none], [0], chainNode none k, 0, pool⟩ := by
    unfold TrieMap.remove
    simp only [@removeNode_chain V [some v] k 0 v rfl]
    rfl
  rw [show ((some (⟨[some v], [], chainNode (some 0) k, 1, pool⟩ : TrieMap V)).map
    (fun s' => (s'.remove k).1)) = some ((⟨[some v], [], chainNode (some 0) k, 1,
    pool⟩ : TrieMap V).remove k).1 from rfl]
  rw [hrem]

theorem insRemIter_succ_eq {V : Type} (k : List Nat) (v : V) (n : Nat) :
    ∃ pool₁, insRemIter k v (n + 1) =
      some (⟨[none], [0], chainNode none k, 0, pool₁⟩ : TrieMap V) := by
  induction n with
  | zero =>
    obtain ⟨pool₁, hr, _⟩ := insRem_round_new k v
    exact ⟨pool₁, hr⟩
  | succ m ih =>
    obtain ⟨pool₁, hp⟩ := ih
    refine ⟨pool₁, ?_⟩
    show (insRemIter k v (m + 1)).bind
        (fun s => (s.insert k v).map (fun s' => (s'.remove k).1)) = _
    rw [hp]
    exact insRem_round_fix k v pool₁

/-- C9: slot allocation reuses the most recently freed index before
appending (trie_map.rs:372-380 pops `free_indices` first), so performing
`insert(K, V)` then `remove(K)` N times from the empty map leaves the
value store's slot array with at most one slot, for every K, V and N. -/
theorem C9_value_store_stays_bounded {V : Type} (k : List Nat) (v : V) (N : Nat) :
    ∃ s' : TrieMap V, insRemIter k v N = some s' ∧ s'.data.length ≤ 1 := by
  cases N with
  | zero => exact ⟨TrieMap.new, rfl, Nat.zero_le 1⟩
  | succ n =>
    obtain ⟨pool₁, hp⟩ := insRemIter_succ_eq k v n
    exact ⟨_, hp, Nat.le_refl 1⟩

/-! ## C4: prefix iteration as the sorted filter of full iteration -/

theorem pairsNode_mk {V : Type} (data : List (Option V)) (mask : Nat) (cs : List TrieNode)
    (d : Option Nat) (q : List Nat) :
    pairsNode data (.mk mask cs d) q =
      ownPair data d q ++ pairsList data cs (maskBits mask) q := by
  simp only [pairsNode, ownPair]

theorem pairsList_cons_cons {V : Type} (data : List (Option V)) (c : TrieNode)
    (cs : List TrieNode) (b : Nat) (bs : List Nat) (q : List Nat) :
    pairsList data (c :: cs) (b :: bs) q =
      pairsNode data c (q ++ [b]) ++ pairsList data cs bs q := by
  simp only [pairsList]

theorem ownPair_cases {V : Type} (data : List (Option V)) (d : Option Nat) (q : List Nat) :
    ownPair data d q = [] ∨ ∃ v, ownPair data d q = [(q, v)] := by
  cases d with
  | none => exact Or.inl rfl
  | some i =>
    cases ho : data[i]? with
    | none => exact Or.inl (by simp [ownPair, ho])
    | some slot =>
      cases slot with
      | none => exact Or.inl (by simp [ownPair, ho])
      | some v => exact Or.inr ⟨v, by simp [ownPair, ho]⟩

theorem ownPair_key {V : Type} (data : List (Option V)) (d : Option Nat) (q : List Nat) :
    ∀ kv ∈ ownPair data d q, kv.1 = q := by
  intro kv hkv
  rcases ownPair_cases data d q with h | ⟨v, h⟩
  · rw [h] at hkv
    simp at hkv
  · rw [h] at hkv
    simp at hkv
    rw [hkv]

theorem lex_append_cons (q t : List Nat) (b : Nat) :
    List.Lex (· < ·) q (q ++ b :: t) := by
  induction q with
  | nil => exact List.Lex.nil
  | cons a q ih => exact List.Lex.cons ih

theorem lex_append_lt {a b : Nat} (t₁ t₂ : List Nat) (q : List Nat) (h : a < b) :
    List.Lex (· < ·) (q ++ a :: t₁) (q ++ b :: t₂) := by
  induction q with
  | nil => exact List.Lex.rel h
  | cons x q ih => exact List.Lex.cons ih

theorem isPrefixOf_append_self (q u : List Nat) : q.isPrefixOf (q ++ u) = true := by
  induction q with
  | nil => simp [List.isPrefixOf]
  | cons a q ih => simp [List.isPrefixOf, ih]

theorem isPrefixOf_snoc_self_eq_false (q : List Nat) (b : Nat) :
    (q ++ [b]).isPrefixOf q = false := by
  induction q with
  | nil => rfl
  | cons a q ih => simp [List.isPrefixOf, ih]

theorem isPrefixOf_snoc_cons (q : List Nat) (b x : Nat) (t : List Nat) :
    (q ++ [b]).isPrefixOf (q ++ x :: t) = (b == x) := by
  induction q with
  | nil => simp [List.isPrefixOf]
  | cons a q ih => simp [List.isPrefixOf, ih]

theorem isPrefixOf_of_snoc_cons_isPrefixOf {q : List Nat} {b : Nat} {P u : List Nat}
    (h : (q ++ b :: P).isPrefixOf u = true) : (q ++ [b]).isPrefixOf u = true := by
  induction q generalizing u with
  | nil =>
    cases u with
    | nil => simp [List.isPrefixOf] at h
    | cons x u =>
      simp only [List.cons_append, List.nil_append, List.isPrefixOf, Bool.and_eq_true,
        beq_iff_eq] at h ⊢
      exact ⟨h.1, by simp [List.isPrefixOf]⟩
  | cons a q ih =>
    cases u with
    | nil => simp [List.isPrefixOf] at h
    | cons x u =>
      simp only [List.cons_append, List.isPrefixOf, Bool.and_eq_true, beq_iff_eq] at h ⊢
      exact ⟨h.1, ih h.2⟩

mutual
theorem pairsNode_extends {V : Type} {data : List (Option V)} :
    ∀ (n : TrieNode) (q : List Nat), ∀ kv ∈ pairsNode data n q, ∃ t, kv.1 = q ++ t
  | .mk mask cs d, q => fun kv hkv => by
    rw [pairsNode_mk, List.mem_append] at hkv
    rcases hkv with hown | htail
    · exact ⟨[], by rw [ownPair_key data d q kv hown, List.append_nil]⟩
    · obtain ⟨x, t, _, h1⟩ := pairsList_extends cs (maskBits mask) q kv htail
      exact ⟨x :: t, h1⟩

theorem pairsList_extends {V : Type} {data : List (Option V)} :
    ∀ (cs : List TrieNode) (bs : List Nat) (q : List Nat),
      ∀ kv ∈ pairsList data cs bs q, ∃ x t, x ∈ bs ∧ kv.1 = q ++ x :: t
  | _, [], _ => fun kv hkv => by simp [pairsList] at hkv
  | [], _ :: _, _ => fun kv hkv => by simp [pairsList] at hkv
  | c :: cs, b :: bs, q => fun kv hkv => by
    rw [pairsList_cons_cons, List.mem_append] at hkv
    rcases hkv with h1 | h2
    · obtain ⟨t, ht⟩ := pairsNode_extends c (q ++ [b]) kv h1
      refine ⟨b, t, List.mem_cons_self b bs, ?_⟩
      rw [ht, List.append_assoc]
      rfl
    · obtain ⟨x, t, hx, h1⟩ := pairsList_extends cs bs q kv h2
      exact ⟨x, t, List.mem_cons_of_mem b hx, h1⟩
end

mutual
theorem pairsNode_pairwise {V : Type} {data : List (Option V)} :
    ∀ (n : TrieNode) (q : List Nat),
      List.Pairwise (fun a e => List.Lex (· < ·) a.1 e.1) (pairsNode data n q)
  | .mk mask cs d, q => by
    rw [pairsNode_mk]
    refine List.pairwise_append.mpr ⟨?_,
      pairsList_pairwise cs (maskBits mask) q (pairwise_maskBitsUpTo mask 256), ?_⟩
    · rcases ownPair_cases data d q with h | ⟨v, h⟩
      · rw [h]
        exact List.Pairwise.nil
      · rw [h]
        exact List.pairwise_singleton _ _
    · intro a ha e he
      obtain ⟨x, t, _, he1⟩ := pairsList_extends cs (maskBits mask) q e he
      rw [ownPair_key data d q a ha, he1]
      exact lex_append_cons q t x

theorem pairsList_pairwise {V : Type} {data : List (Option V)} :
    ∀ (cs : List TrieNode) (bs : List Nat) (q : List Nat), List.Pairwise (· < ·) bs →
      List.Pairwise (fun a e => List.Lex (· < ·) a.1 e.1) (pairsList data cs bs q)
  | _, [], _ => fun _ => by simp [pairsList]
  | [], _ :: _, _ => fun _ => by simp [pairsList]
  | c :: cs, b :: bs, q => fun hp => by
    rw [pairsList_cons_cons]
    refine List.pairwise_append.mpr ⟨pairsNode_pairwise c (q ++ [b]),
      pairsList_pairwise cs bs q hp.of_cons, ?_⟩
    intro a ha e he
    obtain ⟨t₁, ha1⟩ := pairsNode_extends c (q ++ [b]) a ha
    obtain ⟨x, t₂, hx, he1⟩ := pairsList_extends cs bs q e he
    have hbx : b < x := (List.pairwise_cons.mp hp).1 x hx
    rw [ha1, he1, List.append_assoc]
    exact lex_append_lt t₁ t₂ q hbx
end

theorem pairsList_append {V : Type} (data : List (Option V)) :
    ∀ (cs : List TrieNode) (bs₁ bs₂ : List Nat) (q : List Nat),
      pairsList data cs (bs₁ ++ bs₂) q =
        pairsList data (cs.take bs₁.length) bs₁ q ++
          pairsList data (cs.drop bs₁.length) bs₂ q
  | cs, [], bs₂, q => by
    simp [pairsList]
  | [], b :: bs₁, bs₂, q => by
    cases bs₂ with
    | nil => simp [pairsList]
    | cons x xs => simp [pairsList]
  | c :: cs, b :: bs₁, bs₂, q => by
    simp only [List.cons_append, List.length_cons, List.take_succ_cons, List.drop_succ_cons,
      pairsList_cons_cons]
    rw [pairsList_append data cs bs₁ bs₂ q, List.append_assoc]

theorem filter_self_of_key {V : Type} (data : List (Option V)) (n : TrieNode) (p : List Nat) :
    (pairsNode data n p).filter (fun kv => p.isPrefixOf kv.1) = pairsNode data n p := by
  refine List.filter_eq_self.mpr fun kv hkv => ?_
  obtain ⟨t, ht⟩ := pairsNode_extends n p kv hkv
  rw [ht]
  exact isPrefixOf_append_self p t

theorem filter_snoc_pairsList_nil {V : Type} (data : List (Option V)) (cs : List TrieNode)
    (bs : List Nat) (q : List Nat) (b : Nat) (hnb : b ∉ bs) :
    (pairsList data cs bs q).filter (fun kv => (q ++ [b]).isPrefixOf kv.1) = [] := by
  rw [List.filter_eq_nil_iff]
  intro kv hkv
  obtain ⟨x, t, hx, h1⟩ := pairsList_extends cs bs q kv hkv
  have hbx : b ≠ x := fun he => hnb (he ▸ hx)
  simp only [h1, isPrefixOf_snoc_cons]
  simp [hbx]

theorem ownPair_filter_snoc {V : Type} (data : List (Option V)) (d : Option Nat) (q : List Nat)
    (b : Nat) :
    (ownPair data d q).filter (fun kv => (q ++ [b]).isPrefixOf kv.1) = [] := by
  rcases ownPair_cases data d q with h | ⟨v, h⟩
  · rw [h]
    rfl
  · rw [h]
    simp [isPrefixOf_snoc_self_eq_false]

theorem filter_snoc_step_unset {V : Type} (data : List (Option V)) {mask : Nat}
    (cs : List TrieNode) (d : Option Nat) (q : List Nat) {b : Nat}
    (htb : test_bit mask b = false) :
    (pairsNode data (.mk mask cs d) q).filter (fun kv => (q ++ [b]).isPrefixOf kv.1) = [] := by
  have hnb : b ∉ maskBits mask := fun hmem => by
    rw [(mem_maskBitsUpTo.mp hmem).1] at htb
    cases htb
  rw [pairsNode_mk, List.filter_append, ownPair_filter_snoc data d q b,
    filter_snoc_pairsList_nil data cs (maskBits mask) q b hnb]
  rfl

theorem filter_snoc_step_oob {V : Type} (data : List (Option V)) {mask : Nat}
    {cs : List TrieNode} (d : Option Nat) (q : List Nat) {b : Nat}
    (hb : b < 256) (htb : test_bit mask b = true)
    (hc : cs[popcount mask b]? = none) :
    (pairsNode data (.mk mask cs d) q).filter (fun kv => (q ++ [b]).isPrefixOf kv.1) = [] := by
  obtain ⟨tl, hsplit, htl⟩ := maskBitsUpTo_split hb htb
  have hge : cs.length ≤ popcount mask b := List.getElem?_eq_none_iff.mp hc
  rw [pairsNode_mk, List.filter_append, ownPair_filter_snoc data d q b, List.nil_append]
  rw [show maskBits mask = maskBitsUpTo mask 256 from rfl, hsplit,
    pairsList_append data cs (maskBitsUpTo mask b) (b :: tl) q,
    List.filter_append, length_maskBitsUpTo]
  have hL : (pairsList data (cs.take (popcount mask b)) (maskBitsUpTo mask b) q).filter
      (fun kv => (q ++ [b]).isPrefixOf kv.1) = [] := by
    refine filter_snoc_pairsList_nil data _ _ q b fun hmem => ?_
    exact Nat.lt_irrefl b (mem_maskBitsUpTo.mp hmem).2
  rw [hL, List.nil_append, List.drop_eq_nil_of_le hge]
  cases tl with
  | nil => rfl
  | cons y ys => rfl

theorem filter_snoc_step_set {V : Type} (data : List (Option V)) {mask : Nat}
    {cs : List TrieNode} (d : Option Nat) (q : List Nat) {b : Nat} {child : TrieNode}
    (hb : b < 256) (htb : test_bit mask b = true)
    (hc : cs[popcount mask b]? = some child) :
    (pairsNode data (.mk mask cs d) q).filter (fun kv => (q ++ [b]).isPrefixOf kv.1) =
      pairsNode data child (q ++ [b]) := by
  obtain ⟨tl, hsplit, htl⟩ := maskBitsUpTo_split hb htb
  have hlt : popcount mask b < cs.length := (List.getElem?_eq_some.mp hc).1
  have hdrop : cs.drop (popcount mask b) = child :: cs.drop (popcount mask b + 1) := by
    rw [List.drop_eq_getElem_cons hlt]
    have hg : cs[popcount mask b] = child := by
      have h2 := List.getElem?_eq_getElem hlt
      rw [hc] at h2
      exact (Option.some.inj h2).symm
    rw [hg]
  rw [pairsNode_mk, List.filter_append, ownPair_filter_snoc data d q b, List.nil_append]
  rw [show maskBits mask = maskBitsUpTo mask 256 from rfl, hsplit,
    pairsList_append data cs (maskBitsUpTo mask b) (b :: tl) q,
    List.filter_append, length_maskBitsUpTo]
  have hL : (pairsList data (cs.take (popcount mask b)) (maskBitsUpTo mask b) q).filter
      (fun kv => (q ++ [b]).isPrefixOf kv.1) = [] := by
    refine filter_snoc_pairsList_nil data _ _ q b fun hmem => ?_
    exact Nat.lt_irrefl b (mem_maskBitsUpTo.mp hmem).2
  rw [hL, List.nil_append, hdrop, pairsList_cons_cons, List.filter_append,
    filter_self_of_key data child (q ++ [b])]
  have hR : (pairsList data (cs.drop (popcount mask b + 1)) tl q).filter
      (fun kv => (q ++ [b]).isPrefixOf kv.1) = [] := by
    refine filter_snoc_pairsList_nil data _ _ q b fun hmem => ?_
    exact Nat.lt_irrefl b (htl b hmem)
  rw [hR, List.append_nil]

theorem filter_prefix_master {V : Type} (data : List (Option V)) :
    ∀ (P : List Nat) (n : TrieNode) (q : List Nat), (∀ x ∈ P, x < 256) →
      (pairsNode data n q).filter (fun kv => (q ++ P).isPrefixOf kv.1) =
        match getNode n P with
        | none => []
        | some t => pairsNode data t (q ++ P)
  | [], n, q, _ => by
    simp only [getNode, List.append_nil]
    exact filter_self_of_key data n q
  | b :: P, .mk mask cs d, q, hP => by
    have hb : b < 256 := hP b (List.mem_cons_self b P)
    have hPrest : ∀ x ∈ P, x < 256 := fun x hx => hP x (List.mem_cons_of_mem b hx)
    have hchain : (pairsNode data (.mk mask cs d) q).filter
          (fun kv => (q ++ b :: P).isPrefixOf kv.1) =
        ((pairsNode data (.mk mask cs d) q).filter
            (fun kv => (q ++ [b]).isPrefixOf kv.1)).filter
          (fun kv => (q ++ b :: P).isPrefixOf kv.1) := by
      rw [List.filter_filter]
      refine List.filter_congr fun kv _ => ?_
      cases hlong : (q ++ b :: P).isPrefixOf kv.1 with
      | false => simp
      | true =>
        rw [isPrefixOf_of_snoc_cons_isPrefixOf hlong]
        simp
    rw [hchain]
    cases htb : test_bit mask b with
    | false =>
      have hbit : test_bit (TrieNode.mk mask cs d).is_present b = false := htb
      rw [filter_snoc_step_unset data cs d q htb, getNode_cons_none hbit]
      rfl
    | true =>
      have hbit : test_bit (TrieNode.mk mask cs d).is_present b = true := htb
      cases hc : cs[popcount mask b]? with
      | none =>
        rw [filter_snoc_step_oob data d q hb htb hc, getNode_cons_eq hbit]
        simp only [TrieNode.children_mk, TrieNode.is_present_mk, hc]
        rfl
      | some child =>
        rw [filter_snoc_step_set data d q hb htb hc]
        have hrec := filter_prefix_master data P child (q ++ [b]) hPrest
        simp only [← List.append_cons] at hrec
        rw [hrec, getNode_cons_eq hbit]
        simp only [TrieNode.children_mk, TrieNode.is_present_mk, hc]

/-- C4: for every map state and every prefix `P` of u8 bytes,
`prefix_iter(P)` yields exactly the filter of the full iteration to the
pairs whose key starts with `P`; both the full iteration and the prefix
iteration are strictly ascending in byte-lexicographic key order; and a
failed walk to the prefix node yields the empty sequence. -/
theorem C4_prefix_iter_sorted_filter {V : Type} (s : TrieMap V) (P : List Nat)
    (hP : ∀ x ∈ P, x < 256) :
    prefixPairs s P = (iterPairs s).filter (fun kv => P.isPrefixOf kv.1) ∧
    List.Pairwise (fun a e => List.Lex (· < ·) a.1 e.1) (iterPairs s) ∧
    List.Pairwise (fun a e => List.Lex (· < ·) a.1 e.1) (prefixPairs s P) ∧
    (getNode s.root P = none → prefixPairs s P = []) := by
  have hmaster := filter_prefix_master s.data P s.root [] hP
  simp only [List.nil_append] at hmaster
  refine ⟨?_, pairsNode_pairwise s.root [], ?_, ?_⟩
  · exact hmaster.symm
  · cases hg : getNode s.root P with
    | none =>
      simp only [prefixPairs, hg]
      exact List.Pairwise.nil
    | some n =>
      simp only [prefixPairs, hg]
      exact pairsNode_pairwise n P
  · intro h
    simp only [prefixPairs, h]

/-- Witness for C4 at the concrete two-key map `exTrie` with prefix
`[97]`. -/
theorem C4_prefix_iter_sorted_filter_witness :
    (∀ x ∈ [97], x < 256) ∧
      (prefixPairs exTrie [97] = (iterPairs exTrie).filter (fun kv => [97].isPrefixOf kv.1) ∧
        List.Pairwise (fun a e => List.Lex (· < ·) a.1 e.1) (iterPairs exTrie) ∧
        List.Pairwise (fun a e => List.Lex (· < ·) a.1 e.1) (prefixPairs exTrie [97]) ∧
        (getNode exTrie.root [97] = none → prefixPairs exTrie [97] = [])) :=
  ⟨by decide, C4_prefix_iter_sorted_filter exTrie [97] (by decide)⟩

/-! ## C3 and C5: `remove_and_prune` never clears the terminal's `data_idx`

`remove_and_prune_internal` (trie_map.rs:611-682) walks the key with a
shared borrow, then, on a hit, only decrements `size`, pushes the store
index on the free list and takes the slot — no line clears the terminal's
`data_idx` (contrast `remove_internal`, trie_map.rs:583).  The
backtracking compaction loop is therefore dead code (see `pruneLoop`):
its deepest iteration inspects the terminal itself, whose `data_idx` is
still `Some`, so the guard fails and the cascade flag drops to `false`
for good.  Two consequences, each settled by running the faithful model
on a two-operation input:

* the removed key's node keeps a dangling `value_slot` into the freed
  store slot, breaking the structural invariant (C3) — and the next
  insert reuses that slot, making the removed key readable again with the
  new key's value;
* draining a map leaves the root's children array and presence bitmap
  untouched (C5). -/

/-- C3: the structural invariant is NOT preserved by every public
operation.  `remove_and_prune` frees the terminal's store slot without
clearing its `data_idx` (trie_map.rs:632-673 never writes it; contrast
trie_map.rs:583): starting from the well-formed one-key map
`insert [97] 1`, after `remove_and_prune [97]` the reachable terminal
still has `value_slot = Some 0` while store slot 0 holds `None` — the
invariant's value-slot conjunct (`slotsOkNode`) fails.  The dangling slot
is live: the next `insert [98] 2` pops slot 0 off the free list, after
which `get [97]` — a removed key — returns the NEW key's value `2`,
though `len` reports `1`. -/
theorem C3_remove_and_prune_dangling_value_slot :
    (insB (some (TrieMap.new : TrieMap Nat)) [97] 1).map TrieMap.WF = some true ∧
    dangleTrie.map (fun s => slotsOkNode s.data s.root) = some false ∧
    dangleTrie.map TrieMap.WF = some false ∧
    dangleTrie.bind (fun s => valueSlotAt s [97]) = some 0 ∧
    dangleTrie.map TrieMap.data = some [none] ∧
    dangleTrie.bind (fun s => s.get [97]) = some none ∧
    ghostTrie.bind (fun s => s.get [97]) = some (some 2) ∧
    ghostTrie.map TrieMap.len = some 1 := by
  decide

/-- C5: draining a map by `remove_and_prune` on every key does NOT leave
the root with zero children and an all-zero presence bitmap.  The
compaction loop of `remove_and_prune_internal` is dead code (the
terminal's `data_idx` is never cleared, so its guard at trie_map.rs:653
always fails), so after `insert [7] 7` and `remove_and_prune [7]` the map
is drained — `len = 0`, `get [7]` misses, every store slot empty — yet
the root keeps its 1-entry children array and presence bit 7 (bitmap
`2 ^ 7`, popcount 1), refuting the claim. -/
theorem C5_drained_root_keeps_children :
    drainTrie.map TrieMap.len = some 0 ∧
    drainTrie.bind (fun s => s.get [7]) = some none ∧
    drainTrie.map (fun s => s.data.all (fun slot => slot.isNone)) = some true ∧
    drainTrie.map (fun s => s.root.children.length) = some 1 ∧
    drainTrie.map (fun s => s.root.is_present) = some (2 ^ 7) ∧
    drainTrie.map (fun s => popcountAll s.root.is_present) = some 1 := by
  decide
